import Mathlib

/-!
Verification of the `mazegame` maze generator.

This file gives a shallow embedding of the Rust sources
(`src/maze/mod.rs`, `src/maze/square/mod.rs`, `src/constants.rs`) and proves
the frozen specification claims about them.

Modelling conventions:
* `u32` values are modelled as `Nat`.  The one place where `u32` wrapping
  subtraction is reachable (`self.rows - 1` / `self.cols - 1` in
  `pick_direction`, reached with a zero dimension) is modelled by `wsub`,
  the exact wrapping subtraction for operands below `2^32`.  Everywhere
  else the subtractions are guarded by checks that make `Nat` subtraction
  agree with `u32` subtraction.
* Vector indexing `self.sq[i]` is modelled by `List.get?`; a `none` result
  corresponds to a Rust index-out-of-bounds panic.  Inside `Maze.carve`
  indexing happens only after the bounds checks have passed, where it is
  provably in range for well-formed mazes, so `List.getD` is used there.
* `&mut self` methods are state passing: they return the (possibly
  mutated) maze next to their Rust return value.
* The ambient `thread_rng` is an oracle `Nat → Nat`: draw `k` of the run
  yields `oracle k`, and `rng.gen_range(lo, hi)` becomes
  `lo + oracle k % (hi - lo)` (panicking when `hi ≤ lo`, as `rand` does).
* The `while` loop of `generator_growing_tree` is run on explicit fuel;
  exhausting the fuel is the distinguished result `GenResult.fuelOut`,
  and termination theorems show sufficient fuel is never exhausted.
* `Square::is_part_of_room` is called by the sources but its definition is
  not part of them; it is modelled from the spec (see its doc comment).
-/

/-- constants.rs: `DIR_NORTH`. -/
def DIR_NORTH : Nat := 0

/-- constants.rs: `DIR_SOUTH`. -/
def DIR_SOUTH : Nat := 1

/-- constants.rs: `DIR_EAST`. -/
def DIR_EAST : Nat := 2

/-- constants.rs: `DIR_WEST`. -/
def DIR_WEST : Nat := 3

/-- constants.rs: `NUM_DIRECTIONS`. -/
def NUM_DIRECTIONS : Nat := 4

/-- constants.rs: `ID_MAZE_PATH` (an `i32`). -/
def ID_MAZE_PATH : Int := -1

/-- constants.rs: `ID_UNCARVED` (an `i32`). -/
def ID_UNCARVED : Int := 0

/-- Wrapping `u32` subtraction, exact for operands `< 2^32`. -/
def wsub (a b : Nat) : Nat := if b ≤ a then a - b else a + 4294967296 - b

/-- square/mod.rs: a maze square.  The Rust `wall_present : [bool; 4]` array
(indexed `N = 0`, `S = 1`, `E = 2`, `W = 3`) is flattened into four fields;
`id` is the region id written by `Maze::carve` (an `i32` there). -/
structure Square where
  wall_n : Bool
  wall_s : Bool
  wall_e : Bool
  wall_w : Bool
  id : Int
deriving DecidableEq, Repr

/-- square/mod.rs: `Square::new` — all four walls present, id 0. -/
def Square.new : Square := ⟨true, true, true, true, 0⟩

/-- square/mod.rs: `Square::set_wall_state`; the catch-all arm ignores the
request. -/
def Square.set_wall_state (sq : Square) (dir : Nat) (state : Bool) : Square :=
  match dir with
  | 0 => { sq with wall_n := state }
  | 1 => { sq with wall_s := state }
  | 2 => { sq with wall_e := state }
  | 3 => { sq with wall_w := state }
  | _ => sq

/-- square/mod.rs: `Square::break_wall`. -/
def Square.break_wall (sq : Square) (dir : Nat) : Square :=
  sq.set_wall_state dir false

/-- square/mod.rs: `Square::build_wall`. -/
def Square.build_wall (sq : Square) (dir : Nat) : Square :=
  sq.set_wall_state dir true

/-- square/mod.rs: `Square::is_wall_present`; the catch-all arm yields
`false`. -/
def Square.is_wall_present (sq : Square) (dir : Nat) : Bool :=
  match dir with
  | 0 => sq.wall_n
  | 1 => sq.wall_s
  | 2 => sq.wall_e
  | 3 => sq.wall_w
  | _ => false

/-- square/mod.rs: `Square::is_carved` — true iff some wall is absent,
checked in the source order N, S, E, W. -/
def Square.is_carved (sq : Square) : Bool :=
  if sq.is_wall_present DIR_NORTH = false then true
  else if sq.is_wall_present DIR_SOUTH = false then true
  else if sq.is_wall_present DIR_EAST = false then true
  else if sq.is_wall_present DIR_WEST = false then true
  else false

/-- Modelled from the spec: `Square::is_part_of_room` is called by
`Maze::rooms_overlap` and `Maze::print` but its definition is missing from
the sources.  Per the spec (§4.1) it is "true iff the cell's id is a
positive room identifier (not the uncarved sentinel and not the reserved
'plain corridor' sentinel)"; rooms are stamped with ids starting at 1,
corridors with `ID_MAZE_PATH = -1`, uncarved cells hold 0. -/
def Square.is_part_of_room (sq : Square) : Bool := 0 < sq.id

/-- maze/mod.rs: `Coord`. -/
structure Coord where
  x : Nat
  y : Nat
deriving DecidableEq, Repr

/-- maze/mod.rs: `Maze` — row and column counts, room counter and the flat
`Vec<Square>`. -/
structure Maze where
  rows : Nat
  cols : Nat
  num_rooms : Nat
  sq : List Square
deriving DecidableEq, Repr

/-- maze/mod.rs: `Maze::new` — `rows * cols` fresh squares. -/
def Maze.new (rows cols : Nat) : Maze :=
  ⟨rows, cols, 0, List.replicate (rows * cols) Square.new⟩

/-- maze/mod.rs: `Maze::get_rows`. -/
def Maze.get_rows (m : Maze) : Nat := m.rows

/-- maze/mod.rs: `Maze::get_cols`. -/
def Maze.get_cols (m : Maze) : Nat := m.cols

/-- maze/mod.rs: `Maze::get_offset` — flat index `y * cols + x`. -/
def Maze.get_offset (m : Maze) (x y : Nat) : Nat := y * m.cols + x

/-- maze/mod.rs: the two mutation blocks at the end of `Maze::carve`,
acting on the already-validated flat offsets `off` (origin) and `off2`
(destination): break the origin wall facing `dir` and stamp its id, then —
reading the vector already updated by the first block — break the
destination wall facing `dest_dir`, stamping its id only when `carve_out`
is false. -/
def carveAux (m : Maze) (off off2 dir dest_dir : Nat) (id : Int)
    (carve_out : Bool) : Maze :=
  let sq1 := ((m.sq.getD off Square.new).break_wall dir)
  let sq1 := { sq1 with id := id }
  let sqv := m.sq.set off sq1
  let sq2 := ((sqv.getD off2 Square.new).break_wall dest_dir)
  let sq2 := if carve_out = false then { sq2 with id := id } else sq2
  { m with sq := sqv.set off2 sq2 }

/-- maze/mod.rs: `Maze::carve`.  The result pairs the Rust
`Result<(), String>` with the updated maze.  The mutation (`carveAux`)
runs only after every check has passed.  Error messages are abbreviated
forms of the source's formatted messages. -/
def Maze.carve (m : Maze) (x y dir : Nat) (id : Int) (carve_out : Bool) :
    Except String Unit × Maze :=
  if m.rows ≤ y then (Except.error "cannot carve outside of maze", m)
  else if m.cols ≤ x then (Except.error "cannot carve outside of maze", m)
  else
    let go : Nat → Nat → Nat → Except String Unit × Maze :=
      fun dest_x dest_y dest_dir =>
        (Except.ok (), carveAux m (m.get_offset x y)
          (m.get_offset dest_x dest_y) dir dest_dir id carve_out)
    match dir with
    | 0 => if y = 0 then (Except.error "cannot build north wall", m)
           else go x (y - 1) DIR_SOUTH
    | 1 => if y = m.rows - 1 then (Except.error "cannot build south wall", m)
           else go x (y + 1) DIR_NORTH
    | 2 => if x = m.cols - 1 then (Except.error "cannot build east wall", m)
           else go (x + 1) y DIR_WEST
    | 3 => if x = 0 then (Except.error "cannot build west wall", m)
           else go (x - 1) y DIR_EAST
    | _ => (Except.error "cannot build wall in illegal direction", m)

/-- maze/mod.rs: the `directions` vector built inside
`Maze::pick_direction`, in push order N, S, E, W.  A `none` result is a
Rust panic (vector index out of bounds).  The bound checks
`y < self.rows - 1` and `x < self.cols - 1` use wrapping `u32`
subtraction, reachable when a dimension is zero. -/
def Maze.candN (m : Maze) (x y : Nat) : Option (List Nat) :=
  if 0 < y then
    match m.sq.get? (m.get_offset x (y - 1)) with
    | none => none
    | some sq => some (if sq.is_carved = false then [DIR_NORTH] else [])
  else some []

/-- maze/mod.rs: south-candidate step of `Maze::pick_direction`. -/
def Maze.candS (m : Maze) (x y : Nat) : Option (List Nat) :=
  if y < wsub m.rows 1 then
    match m.sq.get? (m.get_offset x (y + 1)) with
    | none => none
    | some sq => some (if sq.is_carved = false then [DIR_SOUTH] else [])
  else some []

/-- maze/mod.rs: east-candidate step of `Maze::pick_direction`. -/
def Maze.candE (m : Maze) (x y : Nat) : Option (List Nat) :=
  if x < wsub m.cols 1 then
    match m.sq.get? (m.get_offset (x + 1) y) with
    | none => none
    | some sq => some (if sq.is_carved = false then [DIR_EAST] else [])
  else some []

/-- maze/mod.rs: west-candidate step of `Maze::pick_direction`. -/
def Maze.candW (m : Maze) (x y : Nat) : Option (List Nat) :=
  if 0 < x then
    match m.sq.get? (m.get_offset (x - 1) y) with
    | none => none
    | some sq => some (if sq.is_carved = false then [DIR_WEST] else [])
  else some []

/-- maze/mod.rs: the full candidate list of `Maze::pick_direction`. -/
def Maze.candidate_directions (m : Maze) (x y : Nat) : Option (List Nat) := do
  let a ← m.candN x y
  let b ← m.candS x y
  let c ← m.candE x y
  let d ← m.candW x y
  pure (a ++ (b ++ (c ++ d)))

/-- maze/mod.rs: `Maze::pick_direction`.  `r` is the oracle value consumed
by `rng.gen_range(0, directions.len())`; it is used only when the
candidate list is non-empty, as in the source.  `none` is a panic. -/
def Maze.pick_direction (m : Maze) (x y r : Nat) : Option (Bool × Nat) :=
  match m.candidate_directions x y with
  | none => none
  | some ds =>
    if ds.length = 0 then some (false, 0)
    else some (true, ds.getD (r % ds.length) 0)

/-- Outcome of a generator run: normal return `Ok(())` with the final maze,
an `Err` return with the final maze, a Rust panic (failed `unwrap` or
out-of-bounds index), or fuel exhaustion of the model's loop counter. -/
inductive GenResult where
  | ok (m : Maze)
  | err (s : String) (m : Maze)
  | crash
  | fuelOut
deriving DecidableEq, Repr

/-- maze/mod.rs: the `while visited.len() > 0` loop of
`Maze::generator_growing_tree`.  The stack grows at the head
(`visited.push`/`visited.pop` act on the Rust vector's tail, modelled here
by the list head).  `k` counts oracle draws; a draw is consumed exactly
when the candidate list is non-empty.  The source's dead `None` arm of
`visited.pop()` is unreachable because the loop guard has already
established a non-empty stack. -/
def Maze.gtLoop (oracle : Nat → Nat) :
    Nat → Nat → Maze → List Coord → Coord → GenResult
  | 0, _, _, _, _ => GenResult.fuelOut
  | fuel + 1, k, m, visited, cur =>
    match visited with
    | [] => GenResult.ok m
    | top :: rest =>
      match m.pick_direction cur.x cur.y (oracle k) with
      | none => GenResult.crash
      | some (false, _) => Maze.gtLoop oracle fuel k m rest top
      | some (true, dir) =>
        match m.carve cur.x cur.y dir ID_MAZE_PATH false with
        | (Except.error _, _) => GenResult.crash
        | (Except.ok _, m') =>
          match dir with
          | 0 => Maze.gtLoop oracle fuel (k + 1) m'
                   (cur :: top :: rest) ⟨cur.x, cur.y - 1⟩
          | 1 => Maze.gtLoop oracle fuel (k + 1) m'
                   (cur :: top :: rest) ⟨cur.x, cur.y + 1⟩
          | 2 => Maze.gtLoop oracle fuel (k + 1) m'
                   (cur :: top :: rest) ⟨cur.x + 1, cur.y⟩
          | 3 => Maze.gtLoop oracle fuel (k + 1) m'
                   (cur :: top :: rest) ⟨cur.x - 1, cur.y⟩
          | _ => GenResult.err "Illegal direction in generate_growing_tree!" m'

/-- maze/mod.rs: `Maze::generator_growing_tree` — the initial-square phase
followed by the loop. -/
def Maze.generator_growing_tree (oracle : Nat → Nat) (fuel : Nat)
    (m : Maze) (start_x start_y : Nat) : GenResult :=
  match m.pick_direction start_x start_y (oracle 0) with
  | none => GenResult.crash
  | some (false, _) =>
    GenResult.err "Unable to pick initial direction in generator!" m
  | some (true, dir) =>
    match m.carve start_x start_y dir ID_MAZE_PATH false with
    | (Except.error _, _) => GenResult.crash
    | (Except.ok _, m') =>
      match dir with
      | 0 => Maze.gtLoop oracle fuel 1 m'
               [⟨start_x, start_y⟩] ⟨start_x, start_y - 1⟩
      | 1 => Maze.gtLoop oracle fuel 1 m'
               [⟨start_x, start_y⟩] ⟨start_x, start_y + 1⟩
      | 2 => Maze.gtLoop oracle fuel 1 m'
               [⟨start_x, start_y⟩] ⟨start_x + 1, start_y⟩
      | 3 => Maze.gtLoop oracle fuel 1 m'
               [⟨start_x, start_y⟩] ⟨start_x - 1, start_y⟩
      | _ => GenResult.err "Illegal direction in generate_growing_tree!" m'

/-- maze/mod.rs: `Maze::generate_perfect` — the growing-tree carver started
at `(0, 0)`. -/
def Maze.generate_perfect (oracle : Nat → Nat) (fuel : Nat) (m : Maze) :
    GenResult :=
  m.generator_growing_tree oracle fuel 0 0

/-- `rand`'s `rng.gen_range(lo, hi)` on `u32`: uniform in `[lo, hi)`,
panicking (`none`) when `hi ≤ lo`.  `r` is the oracle draw. -/
def gen_range (lo hi r : Nat) : Option Nat :=
  if hi ≤ lo then none else some (lo + r % (hi - lo))

/-- maze/mod.rs: the scan of `Maze::rooms_overlap` over the expanded
rectangle, with the source's early `return true`; `none` is an
out-of-bounds panic. -/
def Maze.roomScan (m : Maze) : List (Nat × Nat) → Option Bool
  | [] => some false
  | (x, y) :: rest =>
    match m.sq.get? (m.get_offset x y) with
    | none => none
    | some sq =>
      if sq.is_part_of_room = true then some true else m.roomScan rest

/-- maze/mod.rs: `Maze::rooms_overlap` — scans the candidate rectangle
expanded by one cell (`(x_pos-1)..(end_x+1)` × `(y_pos-1)..(end_y+1)`,
`x` outer), the `- 1` being wrapping `u32` subtraction. -/
def Maze.rooms_overlap (m : Maze) (x_pos y_pos x_size y_size : Nat) :
    Option Bool :=
  let end_x := x_pos + x_size
  let end_y := y_pos + y_size
  let x0 := wsub x_pos 1
  let y0 := wsub y_pos 1
  let xs := List.range' x0 (end_x + 1 - x0)
  let ys := List.range' y0 (end_y + 1 - y0)
  m.roomScan (xs.flatMap (fun x => ys.map (fun y => (x, y))))

/-- Rust `.unwrap()` on a `carve` result: an `Err` is a panic (`none`). -/
def okMaze : Except String Unit × Maze → Option Maze
  | (Except.ok _, m) => some m
  | (Except.error _, _) => none

/-- maze/mod.rs: the body of `Maze::carve_room`'s nested loops for one cell
— up to four unwrapped carves in source order N, S, E, W. -/
def Maze.carve_room_cell (m : Maze) (x y x_pos y_pos end_x end_y : Nat)
    (id : Int) : Option Maze := do
  let m1 ← if y ≠ y_pos then okMaze (m.carve x y DIR_NORTH id false)
           else some m
  let m2 ← if y ≠ end_y - 1 then okMaze (m1.carve x y DIR_SOUTH id false)
           else some m1
  let m3 ← if x ≠ end_x - 1 then okMaze (m2.carve x y DIR_EAST id false)
           else some m2
  if x ≠ x_pos then okMaze (m3.carve x y DIR_WEST id false) else some m3

/-- maze/mod.rs: `Maze::carve_room`'s loop over its cells. -/
def Maze.carve_room_go (m : Maze) (cells : List (Nat × Nat))
    (x_pos y_pos end_x end_y : Nat) (id : Int) : Option Maze :=
  match cells with
  | [] => some m
  | (x, y) :: rest => do
    let m' ← m.carve_room_cell x y x_pos y_pos end_x end_y id
    m'.carve_room_go rest x_pos y_pos end_x end_y id

/-- maze/mod.rs: `Maze::carve_room` — carves all interior walls of the
rectangle (`x` outer loop, `y` inner). -/
def Maze.carve_room (m : Maze) (x_pos y_pos x_size y_size : Nat)
    (id : Int) : Option Maze :=
  let end_x := x_pos + x_size
  let end_y := y_pos + y_size
  let cells := (List.range' x_pos x_size).flatMap
    (fun x => (List.range' y_pos y_size).map (fun y => (x, y)))
  m.carve_room_go cells x_pos y_pos end_x end_y id

/-- maze/mod.rs: the `for _i in 0..count` loop of `Maze::make_rooms`.
Each iteration draws four oracle values; `cols - x_size` / `rows - y_size`
are wrapping `u32` subtractions. -/
def Maze.make_rooms_go (oracle : Nat → Nat) :
    Nat → Nat → Maze → Int → Nat → Nat → Nat → Nat → Option (Maze × Int)
  | 0, _, m, id, _, _, _, _ => some (m, id)
  | n + 1, k, m, id, min_x, max_x, min_y, max_y => do
    let x_size ← gen_range min_x (max_x + 1) (oracle k)
    let y_size ← gen_range min_y (max_y + 1) (oracle (k + 1))
    let x_pos ← gen_range 1 (wsub m.cols x_size) (oracle (k + 2))
    let y_pos ← gen_range 1 (wsub m.rows y_size) (oracle (k + 3))
    let ov ← m.rooms_overlap x_pos y_pos x_size y_size
    if ov = false then do
      let m' ← m.carve_room x_pos y_pos x_size y_size id
      Maze.make_rooms_go oracle n (k + 4) m' (id + 1) min_x max_x min_y max_y
    else
      Maze.make_rooms_go oracle n (k + 4) m id min_x max_x min_y max_y

/-- maze/mod.rs: `Maze::make_rooms` — returns the final `num_rooms`
(`id - 1`) alongside the updated maze. -/
def Maze.make_rooms (oracle : Nat → Nat) (m : Maze)
    (count min_x max_x min_y max_y : Nat) : Option (Nat × Maze) := do
  let r ← Maze.make_rooms_go oracle count 0 m 1 min_x max_x min_y max_y
  let n := (r.2 - 1).toNat
  pure (n, { r.1 with num_rooms := n })

/-- maze/mod.rs: the east-wall text line of one `Maze::print` row (per-cell
glyphs after the leading `X`); `none` is an index panic. -/
def Maze.eastLineGo (m : Maze) (y : Nat) : Nat → Nat → Option String
  | _, 0 => some ""
  | x, n + 1 => do
    let sq ← m.sq.get? (y * m.cols + x)
    let piece := if sq.is_wall_present DIR_EAST = true then " X" else "  "
    let rest ← m.eastLineGo y (x + 1) n
    pure (piece ++ rest)

/-- maze/mod.rs: the south-wall text line of one `Maze::print` row.  In the
else branch the source indexes `self.sq[y * cols + x + 1]` (the room
"pillar" cosmetic check) before testing the two ids; `none` is an index
panic. -/
def Maze.southLineGo (m : Maze) (y : Nat) : Nat → Nat → Option String
  | _, 0 => some ""
  | x, n + 1 =>
    match m.sq.get? (y * m.cols + x) with
    | none => none
    | some sq =>
      if sq.is_wall_present DIR_SOUTH = true then do
        let rest ← m.southLineGo y (x + 1) n
        pure ("XX" ++ rest)
      else
        match m.sq.get? (y * m.cols + x + 1) with
        | none => none
        | some sq2 => do
          let piece := if (sq.is_part_of_room && sq2.is_part_of_room) = true
                       then "  " else " X"
          let rest ← m.southLineGo y (x + 1) n
          pure (piece ++ rest)

/-- maze/mod.rs: the `for y in 0..self.rows` loop of `Maze::print`. -/
def Maze.printRowsGo (m : Maze) : Nat → Nat → Option String
  | _, 0 => some ""
  | y, n + 1 => do
    let e ← m.eastLineGo y 0 m.cols
    let s ← m.southLineGo y 0 m.cols
    let rest ← m.printRowsGo (y + 1) n
    pure ("X" ++ e ++ "\n" ++ "X" ++ s ++ "\n" ++ rest)

/-- maze/mod.rs: `Maze::print`, modelled as the text it would write to the
console; `none` is an index panic. -/
def Maze.print (m : Maze) : Option String := do
  let top := "X" ++ String.mk (List.replicate (2 * m.cols) 'X') ++ "\n"
  let body ← m.printRowsGo 0 m.rows
  pure (top ++ body)

/-- The direction opposite to `dir`, as computed by the `dest_dir` arm of
`Maze::carve` (identity beyond the four defined directions). -/
def oppositeDir : Nat → Nat
  | 0 => 1
  | 1 => 0
  | 2 => 3
  | 3 => 2
  | d + 4 => d + 4

/-- The neighbor of `c` in direction `dir`, as computed by the
`dest_x`/`dest_y` arms of `Maze::carve` (identity beyond the four defined
directions). -/
def neighborCoord (c : Coord) : Nat → Coord
  | 0 => ⟨c.x, c.y - 1⟩
  | 1 => ⟨c.x, c.y + 1⟩
  | 2 => ⟨c.x + 1, c.y⟩
  | 3 => ⟨c.x - 1, c.y⟩
  | _ + 4 => c

/-- Well-formedness: the flat square vector has exactly `rows * cols`
entries, as `Maze::new` establishes. -/
def Maze.wf (m : Maze) : Prop := m.sq.length = m.rows * m.cols

/-- `(x, y)` lies inside an `R`-row, `C`-column grid. -/
def inb (R C : Nat) (c : Coord) : Prop := c.x < C ∧ c.y < R

/-- The square stored for an in-bounds coordinate. -/
def Maze.sqAt (m : Maze) (c : Coord) : Square :=
  m.sq.getD (m.get_offset c.x c.y) Square.new

/-- The cell at `c` is carved (some wall absent). -/
def Maze.carvedAt (m : Maze) (c : Coord) : Prop :=
  (m.sqAt c).is_carved = true

/-- The wall of the cell at `c` facing direction `d` is absent. -/
def Maze.wallAbsent (m : Maze) (c : Coord) (d : Nat) : Prop :=
  (m.sqAt c).is_wall_present d = false

/-- `p` and `q` are adjacent cells of the `R × C` grid. -/
def gridAdj (R C : Nat) (p q : Coord) : Prop :=
  inb R C p ∧ inb R C q ∧
    ((q.x = p.x ∧ p.y + 1 = q.y) ∨ (q.x = p.x ∧ q.y + 1 = p.y) ∨
     (q.y = p.y ∧ p.x + 1 = q.x) ∨ (q.y = p.y ∧ q.x + 1 = p.x))

/-- Adjacent cells whose shared wall is absent on both sides: the edges of
the carved-wall graph. -/
def adjOpen (m : Maze) (p q : Coord) : Prop :=
  gridAdj m.rows m.cols p q ∧
    ((q.x = p.x ∧ p.y + 1 = q.y ∧ m.wallAbsent p DIR_SOUTH ∧
        m.wallAbsent q DIR_NORTH) ∨
     (q.x = p.x ∧ q.y + 1 = p.y ∧ m.wallAbsent p DIR_NORTH ∧
        m.wallAbsent q DIR_SOUTH) ∨
     (q.y = p.y ∧ p.x + 1 = q.x ∧ m.wallAbsent p DIR_EAST ∧
        m.wallAbsent q DIR_WEST) ∨
     (q.y = p.y ∧ q.x + 1 = p.x ∧ m.wallAbsent p DIR_WEST ∧
        m.wallAbsent q DIR_EAST))

/-- Reachability in the carved-wall graph (flood fill). -/
def Reach (m : Maze) : Coord → Coord → Prop :=
  Relation.ReflTransGen (adjOpen m)

/-- `p` has a grid neighbor that is not yet carved. -/
def Maze.hasUncarvedNbr (m : Maze) (p : Coord) : Prop :=
  ∃ q, gridAdj m.rows m.cols p q ∧ ¬ m.carvedAt q

/-- Number of uncarved squares — the loop measure of the growing-tree
carver. -/
def Maze.uncarvedCount (m : Maze) : Nat :=
  ((Finset.range m.sq.length).filter
    (fun i => (m.sq.getD i Square.new).is_carved = false)).card

/-- The bottom of the backtracking stack (`cur` when the stack is empty). -/
def lastCoord : Coord → List Coord → Coord
  | c, [] => c
  | _, c :: rest => lastCoord c rest

/-- Invariant of the growing-tree loop: shape facts, every stacked
coordinate (and the cursor) is an in-bounds carved cell, the stack bottom
is the start cell, every carved cell with an uncarved neighbor is on the
stack or at the cursor, and every carved cell is flood-fill reachable from
the start. -/
def Maze.Inv (R C : Nat) (st : Coord) (m : Maze) (visited : List Coord)
    (cur : Coord) : Prop :=
  m.rows = R ∧ m.cols = C ∧ m.wf ∧
  inb R C cur ∧ (∀ c ∈ visited, inb R C c) ∧
  m.carvedAt cur ∧ (∀ c ∈ visited, m.carvedAt c) ∧
  lastCoord cur visited = st ∧
  (∀ p, inb R C p → m.carvedAt p → m.hasUncarvedNbr p →
    p = cur ∨ p ∈ visited) ∧
  (∀ p, inb R C p → m.carvedAt p → Reach m st p)

/-- Grid adjacency avoiding the origin cell `(0, 0)` — used to express that
the grid graph minus the generator's start cell is still connected. -/
def gridAdjAvoid (R C : Nat) (p q : Coord) : Prop :=
  gridAdj R C p q ∧ p ≠ ⟨0, 0⟩ ∧ q ≠ ⟨0, 0⟩

/-- Reachability in the grid graph avoiding the origin cell. -/
def ReachAvoid (R C : Nat) : Coord → Coord → Prop :=
  Relation.ReflTransGen (gridAdjAvoid R C)

/-! ## List helper lemmas -/

theorem getD_set_self {α : Type} (l : List α) (i : Nat) (a d : α)
    (h : i < l.length) : (l.set i a).getD i d = a := by
  induction l generalizing i with
  | nil => simp at h
  | cons hd tl ih =>
    cases i with
    | zero => rfl
    | succ n => simpa [List.getD] using ih n (by simpa using h)

theorem getD_set_other {α : Type} (l : List α) (i j : Nat) (h : i ≠ j)
    (a d : α) : (l.set i a).getD j d = l.getD j d := by
  induction l generalizing i j with
  | nil => rfl
  | cons hd tl ih =>
    cases i with
    | zero =>
      cases j with
      | zero => exact absurd rfl h
      | succ nj => rfl
    | succ ni =>
      cases j with
      | zero => rfl
      | succ nj => simpa [List.getD] using ih ni nj (by omega)

theorem set_getD_id {α : Type} (l : List α) (i : Nat) (d : α)
    (h : i < l.length) : l.set i (l.getD i d) = l := by
  induction l generalizing i with
  | nil => rfl
  | cons hd tl ih =>
    cases i with
    | zero => rfl
    | succ n => simpa [List.getD] using ih n (by simpa using h)

theorem getD_replicate {α : Type} (n i : Nat) (a d : α) (h : i < n) :
    (List.replicate n a).getD i d = a := by
  induction n generalizing i with
  | zero => omega
  | succ k ih =>
    cases i with
    | zero => rfl
    | succ j => simpa [List.replicate, List.getD] using ih j (by omega)

/-! ## Square-level lemmas -/

theorem square_id_wall (s : Square) (id : Int) (d : Nat) :
    ({ s with id := id } : Square).is_wall_present d = s.is_wall_present d := by
  rcases d with _ | _ | _ | _ | d <;> rfl

theorem square_break_wall_same (s : Square) (d : Nat) (hd : d < 4) :
    (s.break_wall d).is_wall_present d = false := by
  rcases d with _ | _ | _ | _ | d <;> first | rfl | omega

theorem square_break_wall_other (s : Square) (d e : Nat) (hne : e ≠ d) :
    (s.break_wall d).is_wall_present e = s.is_wall_present e := by
  rcases d with _ | _ | _ | _ | d <;> rcases e with _ | _ | _ | _ | e <;>
    first | rfl | omega

theorem square_break_wall_id (s : Square) (d : Nat) :
    (s.break_wall d).id = s.id := by
  rcases d with _ | _ | _ | _ | d <;> rfl

theorem square_is_carved_iff (s : Square) :
    s.is_carved = true ↔ (s.wall_n = false ∨ s.wall_s = false ∨
      s.wall_e = false ∨ s.wall_w = false) := by
  rcases s with ⟨n, st, e, w, id⟩
  rcases n <;> rcases st <;> rcases e <;> rcases w <;> simp [Square.is_carved,
    Square.is_wall_present, DIR_NORTH, DIR_SOUTH, DIR_EAST, DIR_WEST]

theorem square_carved_of_absent (s : Square) (d : Nat) (hd : d < 4)
    (h : s.is_wall_present d = false) : s.is_carved = true := by
  rw [square_is_carved_iff]
  rcases d with _ | _ | _ | _ | d
  · exact Or.inl h
  · exact Or.inr (Or.inl h)
  · exact Or.inr (Or.inr (Or.inl h))
  · exact Or.inr (Or.inr (Or.inr h))
  · omega

theorem square_break_wall_carved (s : Square) (d : Nat) (hd : d < 4) :
    (s.break_wall d).is_carved = true :=
  square_carved_of_absent _ d hd (square_break_wall_same s d hd)

theorem square_wall_mono (s : Square) (d e : Nat)
    (h : s.is_wall_present e = false) :
    (s.break_wall d).is_wall_present e = false := by
  by_cases hde : e = d
  · subst hde
    rcases e with _ | _ | _ | _ | e <;> first | rfl | exact h
  · rw [square_break_wall_other s d e hde]; exact h

theorem square_carved_mono (s : Square) (d : Nat)
    (h : s.is_carved = true) : (s.break_wall d).is_carved = true := by
  rw [square_is_carved_iff] at h ⊢
  rcases d with _ | _ | _ | _ | d <;>
    simp [Square.break_wall, Square.set_wall_state] at * <;> tauto

theorem square_id_carved (s : Square) (id : Int) :
    ({ s with id := id } : Square).is_carved = s.is_carved := by
  rcases s with ⟨n, st, e, w, i⟩; rfl

theorem square_break_break (s : Square) (d : Nat) :
    (s.break_wall d).break_wall d = s.break_wall d := by
  rcases s with ⟨n, st, e, w, i⟩
  rcases d with _ | _ | _ | _ | d <;> rfl

/-! ## carve lemmas -/

theorem carveAux_rows (m : Maze) (off off2 dir dd : Nat) (id : Int)
    (co : Bool) : (carveAux m off off2 dir dd id co).rows = m.rows := rfl

theorem carveAux_cols (m : Maze) (off off2 dir dd : Nat) (id : Int)
    (co : Bool) : (carveAux m off off2 dir dd id co).cols = m.cols := rfl

theorem carveAux_num_rooms (m : Maze) (off off2 dir dd : Nat) (id : Int)
    (co : Bool) :
    (carveAux m off off2 dir dd id co).num_rooms = m.num_rooms := rfl

theorem carveAux_length (m : Maze) (off off2 dir dd : Nat) (id : Int)
    (co : Bool) :
    (carveAux m off off2 dir dd id co).sq.length = m.sq.length := by
  simp [carveAux]

theorem carveAux_getD_other (m : Maze) (off off2 dir dd : Nat) (id : Int)
    (co : Bool) (i : Nat) (hi1 : i ≠ off) (hi2 : i ≠ off2) :
    (carveAux m off off2 dir dd id co).sq.getD i Square.new =
      m.sq.getD i Square.new := by
  simp only [carveAux]
  rw [getD_set_other _ _ _ (Ne.symm hi2), getD_set_other _ _ _ (Ne.symm hi1)]

theorem carveAux_getD_origin (m : Maze) (off off2 dir dd : Nat) (id : Int)
    (co : Bool) (hne : off ≠ off2) (hlen : off < m.sq.length) :
    (carveAux m off off2 dir dd id co).sq.getD off Square.new =
      { (m.sq.getD off Square.new).break_wall dir with id := id } := by
  simp only [carveAux]
  rw [getD_set_other _ _ _ (Ne.symm hne), getD_set_self _ _ _ _ hlen]

theorem carveAux_getD_dest (m : Maze) (off off2 dir dd : Nat) (id : Int)
    (co : Bool) (hne : off ≠ off2) (hlen2 : off2 < m.sq.length) :
    (carveAux m off off2 dir dd id co).sq.getD off2 Square.new =
      (if co = false
       then { (m.sq.getD off2 Square.new).break_wall dd with id := id }
       else (m.sq.getD off2 Square.new).break_wall dd) := by
  simp only [carveAux]
  rw [getD_set_self _ _ _ _ (by simpa using hlen2),
    getD_set_other _ _ _ hne]

theorem carve_north_eq (m : Maze) (x y : Nat) (id : Int) (co : Bool)
    (hy : y < m.rows) (hx : x < m.cols) (h0 : 0 < y) :
    m.carve x y 0 id co =
      (Except.ok (), carveAux m (m.get_offset x y) (m.get_offset x (y - 1))
        0 1 id co) := by
  unfold Maze.carve
  rw [if_neg (by omega), if_neg (by omega)]
  simp only []
  rw [if_neg (by omega)]
  rfl

theorem carve_south_eq (m : Maze) (x y : Nat) (id : Int) (co : Bool)
    (hy : y < m.rows) (hx : x < m.cols) (h1 : y + 1 < m.rows) :
    m.carve x y 1 id co =
      (Except.ok (), carveAux m (m.get_offset x y) (m.get_offset x (y + 1))
        1 0 id co) := by
  unfold Maze.carve
  rw [if_neg (by omega), if_neg (by omega)]
  simp only []
  rw [if_neg (by omega)]
  rfl

theorem carve_east_eq (m : Maze) (x y : Nat) (id : Int) (co : Bool)
    (hy : y < m.rows) (hx : x < m.cols) (h1 : x + 1 < m.cols) :
    m.carve x y 2 id co =
      (Except.ok (), carveAux m (m.get_offset x y) (m.get_offset (x + 1) y)
        2 3 id co) := by
  unfold Maze.carve
  rw [if_neg (by omega), if_neg (by omega)]
  simp only []
  rw [if_neg (by omega)]
  rfl

theorem carve_west_eq (m : Maze) (x y : Nat) (id : Int) (co : Bool)
    (hy : y < m.rows) (hx : x < m.cols) (h0 : 0 < x) :
    m.carve x y 3 id co =
      (Except.ok (), carveAux m (m.get_offset x y) (m.get_offset (x - 1) y)
        3 2 id co) := by
  unfold Maze.carve
  rw [if_neg (by omega), if_neg (by omega)]
  simp only []
  rw [if_neg (by omega)]
  rfl

theorem carve_isOk_iff (m : Maze) (x y dir : Nat) (id : Int) (co : Bool) :
    (m.carve x y dir id co).1 = Except.ok () ↔
      (y < m.rows ∧ x < m.cols ∧
        ((dir = 0 ∧ 0 < y) ∨ (dir = 1 ∧ y + 1 < m.rows) ∨
         (dir = 2 ∧ x + 1 < m.cols) ∨ (dir = 3 ∧ 0 < x))) := by
  unfold Maze.carve
  by_cases h1 : m.rows ≤ y
  · rw [if_pos h1]; simp; omega
  rw [if_neg h1]
  by_cases h2 : m.cols ≤ x
  · rw [if_pos h2]; simp; omega
  rw [if_neg h2]
  simp only []
  rcases dir with _ | _ | _ | _ | d
  · by_cases h3 : y = 0
    · rw [if_pos h3]; simp; omega
    · rw [if_neg h3]; simp; omega
  · by_cases h3 : y = m.rows - 1
    · rw [if_pos h3]; simp; omega
    · rw [if_neg h3]; simp; omega
  · by_cases h3 : x = m.cols - 1
    · rw [if_pos h3]; simp; omega
    · rw [if_neg h3]; simp; omega
  · by_cases h3 : x = 0
    · rw [if_pos h3]; simp; omega
    · rw [if_neg h3]; simp; omega
  · simp

theorem carve_err_snd (m : Maze) (x y dir : Nat) (id : Int) (co : Bool)
    (h : (m.carve x y dir id co).1 ≠ Except.ok ()) :
    (m.carve x y dir id co).2 = m := by
  revert h
  unfold Maze.carve
  by_cases h1 : m.rows ≤ y
  · rw [if_pos h1]; intro _; rfl
  rw [if_neg h1]
  by_cases h2 : m.cols ≤ x
  · rw [if_pos h2]; intro _; rfl
  rw [if_neg h2]
  simp only []
  rcases dir with _ | _ | _ | _ | d
  · by_cases h3 : y = 0
    · rw [if_pos h3]; intro _; rfl
    · rw [if_neg h3]; intro h; exact absurd rfl h
  · by_cases h3 : y = m.rows - 1
    · rw [if_pos h3]; intro _; rfl
    · rw [if_neg h3]; intro h; exact absurd rfl h
  · by_cases h3 : x = m.cols - 1
    · rw [if_pos h3]; intro _; rfl
    · rw [if_neg h3]; intro h; exact absurd rfl h
  · by_cases h3 : x = 0
    · rw [if_pos h3]; intro _; rfl
    · rw [if_neg h3]; intro h; exact absurd rfl h
  · intro _; rfl

/-! ## Offset arithmetic -/

theorem off_lt (x y R C : Nat) (hx : x < C) (hy : y < R) :
    y * C + x < R * C := by
  have h1 : y * C + x < (y + 1) * C := by
    have : (y + 1) * C = y * C + C := by ring
    omega
  have h2 : (y + 1) * C ≤ R * C := Nat.mul_le_mul_right C (by omega)
  omega

theorem off_inj (C x1 y1 x2 y2 : Nat) (hx1 : x1 < C) (hx2 : x2 < C)
    (h : y1 * C + x1 = y2 * C + x2) : x1 = x2 ∧ y1 = y2 := by
  rcases Nat.lt_trichotomy y1 y2 with hlt | heq | hgt
  · have : (y1 + 1) * C ≤ y2 * C := Nat.mul_le_mul_right C (by omega)
    have h1 : (y1 + 1) * C = y1 * C + C := by ring
    omega
  · subst heq; omega
  · have : (y2 + 1) * C ≤ y1 * C := Nat.mul_le_mul_right C (by omega)
    have h1 : (y2 + 1) * C = y2 * C + C := by ring
    omega

theorem offN_ne (C x y : Nat) (hC : 0 < C) (h0 : 0 < y) :
    y * C + x ≠ (y - 1) * C + x := by
  have hm : (y - 1) * C + C = y * C := by
    have h1 : y - 1 + 1 = y := by omega
    calc (y - 1) * C + C = (y - 1 + 1) * C := by ring
      _ = y * C := by rw [h1]
  omega

theorem offS_ne (C x y : Nat) (hC : 0 < C) :
    y * C + x ≠ (y + 1) * C + x := by
  have hm : (y + 1) * C = y * C + C := by ring
  omega

/-! ## Square id interaction -/

theorem square_withid_id (s : Square) (id : Int) :
    ({ s with id := id } : Square).id = id := rfl

theorem square_break_id_comm (s : Square) (id : Int) (d : Nat) :
    ({ s with id := id } : Square).break_wall d =
      { s.break_wall d with id := id } := by
  rcases d with _ | _ | _ | _ | d <;> rfl

theorem carveAux_walls (m : Maze) (off off2 dir dd : Nat) (id : Int)
    (co : Bool) (hne : off ≠ off2) (h1 : off < m.sq.length)
    (h2 : off2 < m.sq.length) (hdir : dir < 4) (hdd : dd < 4) :
    ((carveAux m off off2 dir dd id co).sq.getD off
        Square.new).is_wall_present dir = false ∧
    ((carveAux m off off2 dir dd id co).sq.getD off2
        Square.new).is_wall_present dd = false := by
  constructor
  · rw [carveAux_getD_origin _ _ _ _ _ _ _ hne h1, square_id_wall]
    exact square_break_wall_same _ _ hdir
  · rw [carveAux_getD_dest _ _ _ _ _ _ _ hne h2]
    by_cases hco : co = false
    · rw [if_pos hco, square_id_wall]
      exact square_break_wall_same _ _ hdd
    · rw [if_neg hco]
      exact square_break_wall_same _ _ hdd

theorem carveAux_ids (m : Maze) (off off2 dir dd : Nat) (id : Int)
    (co : Bool) (hne : off ≠ off2) (h1 : off < m.sq.length)
    (h2 : off2 < m.sq.length) :
    ((carveAux m off off2 dir dd id co).sq.getD off Square.new).id = id ∧
    ((carveAux m off off2 dir dd id co).sq.getD off2 Square.new).id =
      (if co = true then (m.sq.getD off2 Square.new).id else id) := by
  constructor
  · rw [carveAux_getD_origin _ _ _ _ _ _ _ hne h1]
  · rw [carveAux_getD_dest _ _ _ _ _ _ _ hne h2]
    by_cases hco : co = false
    · rw [if_pos hco, if_neg (by simp [hco])]
    · rw [if_neg hco, if_pos (by simpa using hco), square_break_wall_id]

theorem carveAux_carved (m : Maze) (off off2 dir dd : Nat) (id : Int)
    (co : Bool) (hne : off ≠ off2) (h1 : off < m.sq.length)
    (h2 : off2 < m.sq.length) (hdir : dir < 4) (hdd : dd < 4) :
    ((carveAux m off off2 dir dd id co).sq.getD off
        Square.new).is_carved = true ∧
    ((carveAux m off off2 dir dd id co).sq.getD off2
        Square.new).is_carved = true := by
  obtain ⟨w1, w2⟩ := carveAux_walls m off off2 dir dd id co hne h1 h2 hdir hdd
  exact ⟨square_carved_of_absent _ _ hdir w1,
    square_carved_of_absent _ _ hdd w2⟩

theorem carveAux_wall_mono (m : Maze) (off off2 dir dd : Nat) (id : Int)
    (co : Bool) (hne : off ≠ off2) (h1 : off < m.sq.length)
    (h2 : off2 < m.sq.length) (i e : Nat)
    (h : (m.sq.getD i Square.new).is_wall_present e = false) :
    ((carveAux m off off2 dir dd id co).sq.getD i
        Square.new).is_wall_present e = false := by
  by_cases hi2 : i = off2
  · subst hi2
    rw [carveAux_getD_dest _ _ _ _ _ _ _ hne h2]
    by_cases hco : co = false
    · rw [if_pos hco, square_id_wall]; exact square_wall_mono _ _ _ h
    · rw [if_neg hco]; exact square_wall_mono _ _ _ h
  · by_cases hi1 : i = off
    · subst hi1
      rw [carveAux_getD_origin _ _ _ _ _ _ _ hne h1, square_id_wall]
      exact square_wall_mono _ _ _ h
    · rw [carveAux_getD_other _ _ _ _ _ _ _ _ hi1 hi2]; exact h

theorem carveAux_carved_mono (m : Maze) (off off2 dir dd : Nat) (id : Int)
    (co : Bool) (hne : off ≠ off2) (h1 : off < m.sq.length)
    (h2 : off2 < m.sq.length) (i : Nat)
    (h : (m.sq.getD i Square.new).is_carved = true) :
    ((carveAux m off off2 dir dd id co).sq.getD i
        Square.new).is_carved = true := by
  by_cases hi2 : i = off2
  · subst hi2
    rw [carveAux_getD_dest _ _ _ _ _ _ _ hne h2]
    by_cases hco : co = false
    · rw [if_pos hco, square_id_carved]; exact square_carved_mono _ _ h
    · rw [if_neg hco]; exact square_carved_mono _ _ h
  · by_cases hi1 : i = off
    · subst hi1
      rw [carveAux_getD_origin _ _ _ _ _ _ _ hne h1, square_id_carved]
      exact square_carved_mono _ _ h
    · rw [carveAux_getD_other _ _ _ _ _ _ _ _ hi1 hi2]; exact h

theorem carve_ok_full (m : Maze) (x y dir : Nat) (id : Int) (co : Bool)
    (hwf : m.wf) (hx : x < m.cols) (hy : y < m.rows)
    (hdir : (dir = 0 ∧ 0 < y) ∨ (dir = 1 ∧ y + 1 < m.rows) ∨
      (dir = 2 ∧ x + 1 < m.cols) ∨ (dir = 3 ∧ 0 < x)) :
    m.carve x y dir id co =
      (Except.ok (), carveAux m (m.get_offset x y)
        (m.get_offset (neighborCoord ⟨x, y⟩ dir).x
          (neighborCoord ⟨x, y⟩ dir).y) dir (oppositeDir dir) id co) ∧
    m.get_offset x y ≠ m.get_offset (neighborCoord ⟨x, y⟩ dir).x
      (neighborCoord ⟨x, y⟩ dir).y ∧
    m.get_offset x y < m.sq.length ∧
    m.get_offset (neighborCoord ⟨x, y⟩ dir).x
      (neighborCoord ⟨x, y⟩ dir).y < m.sq.length ∧
    dir < 4 ∧ oppositeDir dir < 4 := by
  have hC : 0 < m.cols := by omega
  have hwf' : m.sq.length = m.rows * m.cols := hwf
  rcases hdir with ⟨hd, hc⟩ | ⟨hd, hc⟩ | ⟨hd, hc⟩ | ⟨hd, hc⟩ <;> subst hd
  · refine ⟨carve_north_eq m x y id co hy hx hc, ?_, ?_, ?_, by omega, by decide⟩
    · exact offN_ne m.cols x y hC hc
    · rw [hwf']; exact off_lt x y m.rows m.cols hx hy
    · rw [hwf']; exact off_lt x (y - 1) m.rows m.cols hx (by omega)
  · refine ⟨carve_south_eq m x y id co hy hx hc, ?_, ?_, ?_, by omega, by decide⟩
    · exact offS_ne m.cols x y hC
    · rw [hwf']; exact off_lt x y m.rows m.cols hx hy
    · rw [hwf']; exact off_lt x (y + 1) m.rows m.cols hx hc
  · refine ⟨carve_east_eq m x y id co hy hx hc, ?_, ?_, ?_, by omega, by decide⟩
    · show y * m.cols + x ≠ y * m.cols + (x + 1)
      omega
    · rw [hwf']; exact off_lt x y m.rows m.cols hx hy
    · rw [hwf']; exact off_lt (x + 1) y m.rows m.cols hc hy
  · refine ⟨carve_west_eq m x y id co hy hx hc, ?_, ?_, ?_, by omega, by decide⟩
    · show y * m.cols + x ≠ y * m.cols + (x - 1)
      omega
    · rw [hwf']; exact off_lt x y m.rows m.cols hx hy
    · rw [hwf']; exact off_lt (x - 1) y m.rows m.cols (by omega) hy

theorem carveAux_idem (m : Maze) (off off2 dir dd : Nat) (id : Int)
    (co : Bool) (hne : off ≠ off2) (h1 : off < m.sq.length)
    (h2 : off2 < m.sq.length) :
    carveAux (carveAux m off off2 dir dd id co) off off2 dir dd id co =
      carveAux m off off2 dir dd id co := by
  set M := carveAux m off off2 dir dd id co with hM
  have hlen : M.sq.length = m.sq.length := carveAux_length m off off2 dir dd id co
  have hgo : M.sq.getD off Square.new =
      { (m.sq.getD off Square.new).break_wall dir with id := id } :=
    carveAux_getD_origin m off off2 dir dd id co hne h1
  have hgd : M.sq.getD off2 Square.new =
      (if co = false
       then { (m.sq.getD off2 Square.new).break_wall dd with id := id }
       else (m.sq.getD off2 Square.new).break_wall dd) :=
    carveAux_getD_dest m off off2 dir dd id co hne h2
  have hs1 : ({ (M.sq.getD off Square.new).break_wall dir with id := id } :
      Square) = M.sq.getD off Square.new := by
    rw [hgo, square_break_id_comm, square_break_break]
  simp only [carveAux]
  rw [hs1, set_getD_id _ _ _ (by rw [hlen]; exact h1)]
  have hs2 : (if co = false
      then { (M.sq.getD off2 Square.new).break_wall dd with id := id }
      else (M.sq.getD off2 Square.new).break_wall dd) =
        M.sq.getD off2 Square.new := by
    by_cases hco : co = false
    · rw [if_pos hco, hgd, if_pos hco, square_break_id_comm,
        square_break_break]
    · rw [if_neg hco, hgd, if_neg hco, square_break_break]
  rw [hs2, set_getD_id _ _ _ (by rw [hlen]; exact h2)]

/-! ## Claim C2 -/

/-- **C2.** For every in-bounds cell `(x, y)` and every direction
`D ∈ {North, South, East, West}` whose neighbor lies inside the grid,
`carve(x, y, D, id, carve_out)` succeeds, and afterwards the wall of
`(x, y)` facing `D` is absent and the wall of the neighbor in direction
`D` facing the opposite of `D` is absent. -/
theorem carve_breaks_both_walls (m : Maze) (x y dir : Nat) (id : Int)
    (co : Bool) (hwf : m.wf) (hx : x < m.cols) (hy : y < m.rows)
    (hdir : (dir = DIR_NORTH ∧ 0 < y) ∨ (dir = DIR_SOUTH ∧ y + 1 < m.rows) ∨
      (dir = DIR_EAST ∧ x + 1 < m.cols) ∨ (dir = DIR_WEST ∧ 0 < x)) :
    (m.carve x y dir id co).1 = Except.ok () ∧
    (m.carve x y dir id co).2.wallAbsent ⟨x, y⟩ dir ∧
    (m.carve x y dir id co).2.wallAbsent (neighborCoord ⟨x, y⟩ dir)
      (oppositeDir dir) := by
  obtain ⟨heq, hne, h1, h2, hd4, hdd4⟩ :=
    carve_ok_full m x y dir id co hwf hx hy hdir
  rw [heq]
  obtain ⟨w1, w2⟩ := carveAux_walls m _ _ dir _ id co hne h1 h2 hd4 hdd4
  exact ⟨rfl, w1, w2⟩

/-- Witness for C2 at a concrete input: carving south from `(0, 0)` on a
fresh 2×2 grid. -/
theorem carve_breaks_both_walls_witness :
    ((Maze.new 2 2).carve 0 0 DIR_SOUTH (-1) false).1 = Except.ok () ∧
    ((Maze.new 2 2).carve 0 0 DIR_SOUTH (-1) false).2.wallAbsent
      ⟨0, 0⟩ DIR_SOUTH ∧
    ((Maze.new 2 2).carve 0 0 DIR_SOUTH (-1) false).2.wallAbsent
      (neighborCoord ⟨0, 0⟩ DIR_SOUTH) (oppositeDir DIR_SOUTH) :=
  carve_breaks_both_walls (Maze.new 2 2) 0 0 DIR_SOUTH (-1) false
    (by rfl) (by decide) (by decide)
    (Or.inr (Or.inl ⟨rfl, by decide⟩))

/-! ## Claim C3 -/

/-- **C3.** `carve` returns an error exactly when `(x, y)` is outside the
grid, or the direction points off the grid edge (north at row 0, south at
the last row, east at the last column, west at column 0), or the direction
is not one of the four defined directions; and whenever it errors the
entire grid state is unchanged (the operation is atomic). -/
theorem carve_error_iff_atomic (m : Maze) (x y dir : Nat) (id : Int)
    (co : Bool) (hwf : m.wf) :
    ((m.carve x y dir id co).1 ≠ Except.ok () ↔
      (m.rows ≤ y ∨ m.cols ≤ x ∨ (dir = DIR_NORTH ∧ y = 0) ∨
       (dir = DIR_SOUTH ∧ m.rows ≤ y + 1) ∨
       (dir = DIR_EAST ∧ m.cols ≤ x + 1) ∨ (dir = DIR_WEST ∧ x = 0) ∨
       4 ≤ dir)) ∧
    ((m.carve x y dir id co).1 ≠ Except.ok () →
      (m.carve x y dir id co).2 = m) := by
  refine ⟨?_, carve_err_snd m x y dir id co⟩
  rw [Ne, carve_isOk_iff]
  simp only [DIR_NORTH, DIR_SOUTH, DIR_EAST, DIR_WEST]
  rcases dir with _ | _ | _ | _ | d <;> simp <;> omega

/-- Witness for C3 at a concrete input: carving north from `(0, 0)` on a
fresh 2×2 grid errors and leaves the grid unchanged. -/
theorem carve_error_iff_atomic_witness :
    (((Maze.new 2 2).carve 0 0 DIR_NORTH (-1) false).1 ≠ Except.ok () ↔
      ((Maze.new 2 2).rows ≤ 0 ∨ (Maze.new 2 2).cols ≤ 0 ∨
       (DIR_NORTH = DIR_NORTH ∧ 0 = 0) ∨
       (DIR_NORTH = DIR_SOUTH ∧ (Maze.new 2 2).rows ≤ 0 + 1) ∨
       (DIR_NORTH = DIR_EAST ∧ (Maze.new 2 2).cols ≤ 0 + 1) ∨
       (DIR_NORTH = DIR_WEST ∧ 0 = 0) ∨ 4 ≤ DIR_NORTH)) ∧
    (((Maze.new 2 2).carve 0 0 DIR_NORTH (-1) false).1 ≠ Except.ok () →
      ((Maze.new 2 2).carve 0 0 DIR_NORTH (-1) false).2 = Maze.new 2 2) :=
  carve_error_iff_atomic (Maze.new 2 2) 0 0 DIR_NORTH (-1) false (by rfl)

/-! ## Claim C4 -/

/-- **C4.** For every successful `carve(x, y, D, id, carve_out)`: the
origin cell's id is set to `id`; the destination cell's id is set to `id`
iff `carve_out` is false (otherwise it keeps its old id); and no square
other than those two is modified. -/
theorem carve_stamps_ids (m : Maze) (x y dir : Nat) (id : Int) (co : Bool)
    (hwf : m.wf) (hok : (m.carve x y dir id co).1 = Except.ok ()) :
    ((m.carve x y dir id co).2.sqAt ⟨x, y⟩).id = id ∧
    ((m.carve x y dir id co).2.sqAt (neighborCoord ⟨x, y⟩ dir)).id =
      (if co = true then (m.sqAt (neighborCoord ⟨x, y⟩ dir)).id else id) ∧
    (∀ i, i ≠ m.get_offset x y →
      i ≠ m.get_offset (neighborCoord ⟨x, y⟩ dir).x
        (neighborCoord ⟨x, y⟩ dir).y →
      (m.carve x y dir id co).2.sq.getD i Square.new =
        m.sq.getD i Square.new) := by
  obtain ⟨hy, hx, hdir⟩ := (carve_isOk_iff m x y dir id co).mp hok
  obtain ⟨heq, hne, h1, h2, hd4, hdd4⟩ :=
    carve_ok_full m x y dir id co hwf hx hy hdir
  rw [heq]
  obtain ⟨i1, i2⟩ := carveAux_ids m _ _ dir _ id co hne h1 h2
  exact ⟨i1, i2, fun i hi1 hi2 =>
    carveAux_getD_other m _ _ dir _ id co i hi1 hi2⟩

/-- Witness for C4 at a concrete input: carving south from `(0, 0)` on a
fresh 2×2 grid with `carve_out = true`. -/
theorem carve_stamps_ids_witness :
    (((Maze.new 2 2).carve 0 0 DIR_SOUTH 7 true).2.sqAt ⟨0, 0⟩).id = 7 ∧
    (((Maze.new 2 2).carve 0 0 DIR_SOUTH 7 true).2.sqAt
        (neighborCoord ⟨0, 0⟩ DIR_SOUTH)).id =
      (if true = true
       then ((Maze.new 2 2).sqAt (neighborCoord ⟨0, 0⟩ DIR_SOUTH)).id
       else 7) ∧
    (∀ i, i ≠ (Maze.new 2 2).get_offset 0 0 →
      i ≠ (Maze.new 2 2).get_offset (neighborCoord ⟨0, 0⟩ DIR_SOUTH).x
        (neighborCoord ⟨0, 0⟩ DIR_SOUTH).y →
      ((Maze.new 2 2).carve 0 0 DIR_SOUTH 7 true).2.sq.getD i Square.new =
        (Maze.new 2 2).sq.getD i Square.new) :=
  carve_stamps_ids (Maze.new 2 2) 0 0 DIR_SOUTH 7 true (by rfl) (by rfl)

/-! ## Claim C9 -/

/-- **C9.** `carve` is idempotent: repeating a successful
`carve(x, y, D, id, carve_out)` with the same arguments succeeds again and
leaves the grid state exactly as after the first call. -/
theorem carve_idempotent (m : Maze) (x y dir : Nat) (id : Int) (co : Bool)
    (hwf : m.wf) (m1 : Maze)
    (h : m.carve x y dir id co = (Except.ok (), m1)) :
    m1.carve x y dir id co = (Except.ok (), m1) := by
  have hok : (m.carve x y dir id co).1 = Except.ok () := by rw [h]
  obtain ⟨hy, hx, hdir⟩ := (carve_isOk_iff m x y dir id co).mp hok
  obtain ⟨heq, hne, h1, h2, hd4, hdd4⟩ :=
    carve_ok_full m x y dir id co hwf hx hy hdir
  have hm1 : m1 = carveAux m (m.get_offset x y)
      (m.get_offset (neighborCoord ⟨x, y⟩ dir).x
        (neighborCoord ⟨x, y⟩ dir).y) dir (oppositeDir dir) id co := by
    have := h.symm.trans heq
    exact congrArg Prod.snd this
  subst hm1
  obtain ⟨heq2, hne2, h1', h2', _, _⟩ :=
    carve_ok_full (carveAux m (m.get_offset x y)
        (m.get_offset (neighborCoord ⟨x, y⟩ dir).x
          (neighborCoord ⟨x, y⟩ dir).y) dir (oppositeDir dir) id co)
      x y dir id co
      (by
        show (carveAux _ _ _ _ _ _ _).sq.length = _
        rw [carveAux_length, carveAux_rows, carveAux_cols]
        exact hwf)
      (by rw [carveAux_cols]; exact hx)
      (by rw [carveAux_rows]; exact hy)
      (by rw [carveAux_rows, carveAux_cols]; exact hdir)
  rw [heq2]
  congr 1
  exact carveAux_idem m _ _ dir _ id co hne h1 h2

/-- Witness for C9 at a concrete input: repeating the south carve from
`(0, 0)` on a fresh 2×2 grid. -/
theorem carve_idempotent_witness :
    (((Maze.new 2 2).carve 0 0 DIR_SOUTH (-1) false).2.carve 0 0 DIR_SOUTH
        (-1) false) =
      (Except.ok (), ((Maze.new 2 2).carve 0 0 DIR_SOUTH (-1) false).2) :=
  carve_idempotent (Maze.new 2 2) 0 0 DIR_SOUTH (-1) false (by rfl)
    ((Maze.new 2 2).carve 0 0 DIR_SOUTH (-1) false).2 (by rfl)

/-! ## pick_direction lemmas -/

theorem get?_eq_getD {α : Type} (l : List α) (i : Nat) (d : α)
    (h : i < l.length) : l.get? i = some (l.getD i d) := by
  induction l generalizing i with
  | nil => simp at h
  | cons hd tl ih =>
    cases i with
    | zero => rfl
    | succ n => simpa [List.getD] using ih n (by simpa using h)

theorem wsub_one (n : Nat) (h : 0 < n) : wsub n 1 = n - 1 := by
  unfold wsub; rw [if_pos (by omega)]

theorem candN_some (m : Maze) (x y : Nat) (hwf : m.wf) (hx : x < m.cols)
    (hy : y < m.rows) :
    m.candN x y = some (if 0 < y then
      (if (m.sq.getD (m.get_offset x (y - 1)) Square.new).is_carved = false
       then [DIR_NORTH] else []) else []) := by
  unfold Maze.candN
  by_cases h0 : 0 < y
  · rw [if_pos h0, if_pos h0, get?_eq_getD _ _ Square.new
      (by rw [hwf]; exact off_lt x (y - 1) m.rows m.cols hx (by omega))]
  · rw [if_neg h0, if_neg h0]

theorem candS_some (m : Maze) (x y : Nat) (hwf : m.wf) (hx : x < m.cols)
    (hy : y < m.rows) :
    m.candS x y = some (if y + 1 < m.rows then
      (if (m.sq.getD (m.get_offset x (y + 1)) Square.new).is_carved = false
       then [DIR_SOUTH] else []) else []) := by
  unfold Maze.candS
  rw [wsub_one m.rows (by omega)]
  by_cases h0 : y + 1 < m.rows
  · rw [if_pos (show y < m.rows - 1 by omega), if_pos h0,
      get?_eq_getD _ _ Square.new
      (by rw [hwf]; exact off_lt x (y + 1) m.rows m.cols hx (by omega))]
  · rw [if_neg (show ¬ y < m.rows - 1 by omega), if_neg h0]

theorem candE_some (m : Maze) (x y : Nat) (hwf : m.wf) (hx : x < m.cols)
    (hy : y < m.rows) :
    m.candE x y = some (if x + 1 < m.cols then
      (if (m.sq.getD (m.get_offset (x + 1) y) Square.new).is_carved = false
       then [DIR_EAST] else []) else []) := by
  unfold Maze.candE
  rw [wsub_one m.cols (by omega)]
  by_cases h0 : x + 1 < m.cols
  · rw [if_pos (show x < m.cols - 1 by omega), if_pos h0,
      get?_eq_getD _ _ Square.new
      (by rw [hwf]; exact off_lt (x + 1) y m.rows m.cols (by omega) hy)]
  · rw [if_neg (show ¬ x < m.cols - 1 by omega), if_neg h0]

theorem candW_some (m : Maze) (x y : Nat) (hwf : m.wf) (hx : x < m.cols)
    (hy : y < m.rows) :
    m.candW x y = some (if 0 < x then
      (if (m.sq.getD (m.get_offset (x - 1) y) Square.new).is_carved = false
       then [DIR_WEST] else []) else []) := by
  unfold Maze.candW
  by_cases h0 : 0 < x
  · rw [if_pos h0, if_pos h0, get?_eq_getD _ _ Square.new
      (by rw [hwf]; exact off_lt (x - 1) y m.rows m.cols (by omega) hy)]
  · rw [if_neg h0, if_neg h0]

theorem candidates_some (m : Maze) (x y : Nat) (hwf : m.wf)
    (hx : x < m.cols) (hy : y < m.rows) :
    m.candidate_directions x y = some (
      (if 0 < y then
        (if (m.sq.getD (m.get_offset x (y - 1)) Square.new).is_carved = false
         then [DIR_NORTH] else []) else []) ++
      ((if y + 1 < m.rows then
        (if (m.sq.getD (m.get_offset x (y + 1)) Square.new).is_carved = false
         then [DIR_SOUTH] else []) else []) ++
      ((if x + 1 < m.cols then
        (if (m.sq.getD (m.get_offset (x + 1) y) Square.new).is_carved = false
         then [DIR_EAST] else []) else []) ++
      (if 0 < x then
        (if (m.sq.getD (m.get_offset (x - 1) y) Square.new).is_carved = false
         then [DIR_WEST] else []) else [])))) := by
  unfold Maze.candidate_directions
  rw [candN_some m x y hwf hx hy, candS_some m x y hwf hx hy,
    candE_some m x y hwf hx hy, candW_some m x y hwf hx hy]
  rfl

theorem mem_if_list (c1 c2 : Prop) [Decidable c1] [Decidable c2]
    (v d : Nat) :
    (d ∈ (if c1 then (if c2 then [v] else []) else ([] : List Nat))) ↔
      (c1 ∧ c2 ∧ d = v) := by
  split_ifs <;> simp <;> tauto

theorem candidates_mem (m : Maze) (x y : Nat) (hwf : m.wf)
    (hx : x < m.cols) (hy : y < m.rows) (l : List Nat)
    (h : m.candidate_directions x y = some l) (d : Nat) :
    d ∈ l ↔ ((d = DIR_NORTH ∧ 0 < y ∧ ¬ m.carvedAt ⟨x, y - 1⟩) ∨
      (d = DIR_SOUTH ∧ y + 1 < m.rows ∧ ¬ m.carvedAt ⟨x, y + 1⟩) ∨
      (d = DIR_EAST ∧ x + 1 < m.cols ∧ ¬ m.carvedAt ⟨x + 1, y⟩) ∨
      (d = DIR_WEST ∧ 0 < x ∧ ¬ m.carvedAt ⟨x - 1, y⟩)) := by
  rw [candidates_some m x y hwf hx hy] at h
  injection h with h
  subst h
  simp only [List.mem_append, mem_if_list, Maze.carvedAt, Maze.sqAt,
    Bool.not_eq_true, DIR_NORTH, DIR_SOUTH, DIR_EAST, DIR_WEST,
    Maze.get_offset]
  tauto

theorem getD_mem_of_lt {α : Type} (l : List α) (i : Nat) (d : α)
    (h : i < l.length) : l.getD i d ∈ l := by
  induction l generalizing i with
  | nil => simp at h
  | cons hd tl ih =>
    cases i with
    | zero => simp [List.getD]
    | succ n =>
      have : (hd :: tl).getD (n + 1) d = tl.getD n d := by simp [List.getD]
      rw [this]
      exact List.mem_cons_of_mem _ (ih n (by simpa using h))

theorem getD_mem (l : List Nat) (h : l ≠ []) (r : Nat) :
    l.getD (r % l.length) 0 ∈ l :=
  getD_mem_of_lt l _ 0 (Nat.mod_lt _ (List.length_pos.mpr h))

theorem pick_direction_eq (m : Maze) (x y r : Nat) (l : List Nat)
    (h : m.candidate_directions x y = some l) :
    m.pick_direction x y r =
      (if l.length = 0 then some (false, 0)
       else some (true, l.getD (r % l.length) 0)) := by
  unfold Maze.pick_direction
  rw [h]

/-! ## Claim C7 -/

/-- **C7.** For every in-bounds cell, the candidate set computed by
`pick_direction` contains a direction iff the neighbor in that direction
exists within the grid bounds and is not yet carved; when the set is empty
`pick_direction` reports no candidate (the `false` result). -/
theorem pick_direction_candidate_set (m : Maze) (x y : Nat) (hwf : m.wf)
    (hx : x < m.cols) (hy : y < m.rows) :
    ∃ l, m.candidate_directions x y = some l ∧
      (∀ d, d ∈ l ↔
        ((d = DIR_NORTH ∧ 0 < y ∧ ¬ m.carvedAt ⟨x, y - 1⟩) ∨
         (d = DIR_SOUTH ∧ y + 1 < m.rows ∧ ¬ m.carvedAt ⟨x, y + 1⟩) ∨
         (d = DIR_EAST ∧ x + 1 < m.cols ∧ ¬ m.carvedAt ⟨x + 1, y⟩) ∨
         (d = DIR_WEST ∧ 0 < x ∧ ¬ m.carvedAt ⟨x - 1, y⟩))) ∧
      (l = [] → ∀ r, m.pick_direction x y r = some (false, 0)) := by
  refine ⟨_, candidates_some m x y hwf hx hy, fun d =>
    candidates_mem m x y hwf hx hy _ (candidates_some m x y hwf hx hy) d,
    ?_⟩
  intro hl r
  rw [pick_direction_eq m x y r _ (candidates_some m x y hwf hx hy), hl]
  rfl

/-- Witness for C7 at a concrete input: the corner `(0, 0)` of a fresh
1×2 grid. -/
theorem pick_direction_candidate_set_witness :
    ∃ l, (Maze.new 1 2).candidate_directions 0 0 = some l ∧
      (∀ d, d ∈ l ↔
        ((d = DIR_NORTH ∧ 0 < 0 ∧ ¬ (Maze.new 1 2).carvedAt ⟨0, 0 - 1⟩) ∨
         (d = DIR_SOUTH ∧ 0 + 1 < (Maze.new 1 2).rows ∧
            ¬ (Maze.new 1 2).carvedAt ⟨0, 0 + 1⟩) ∨
         (d = DIR_EAST ∧ 0 + 1 < (Maze.new 1 2).cols ∧
            ¬ (Maze.new 1 2).carvedAt ⟨0 + 1, 0⟩) ∨
         (d = DIR_WEST ∧ 0 < 0 ∧ ¬ (Maze.new 1 2).carvedAt ⟨0 - 1, 0⟩))) ∧
      (l = [] → ∀ r, (Maze.new 1 2).pick_direction 0 0 r =
        some (false, 0)) :=
  pick_direction_candidate_set (Maze.new 1 2) 0 0 (by rfl) (by decide)
    (by decide)

/-! ## Claim C5 (code bug): zero-sized grids crash -/

theorem new_zero_sq (R C : Nat) (h : R * C = 0) : (Maze.new R C).sq = [] := by
  simp [Maze.new, h]

theorem zero_grid_candidates_none (R C : Nat) (h : R * C = 0) :
    (Maze.new R C).candidate_directions 0 0 = none := by
  have h1 : (Maze.new R C).candN 0 0 = some [] := by
    unfold Maze.candN
    rw [if_neg (by omega)]
  by_cases hR : R = 0
  · subst hR
    have h2 : (Maze.new 0 C).candS 0 0 = none := by
      unfold Maze.candS
      rw [if_pos (by norm_num [Maze.new, wsub])]
      rw [new_zero_sq 0 C (by omega)]
      rfl
    simp [Maze.candidate_directions, h1, h2]
  · have hC : C = 0 := by
      rcases Nat.mul_eq_zero.mp h with h' | h'
      · exact absurd h' hR
      · exact h'
    subst hC
    by_cases hR1 : R = 1
    · subst hR1
      have h2 : (Maze.new 1 0).candS 0 0 = some [] := by
        unfold Maze.candS
        rw [if_neg (by norm_num [Maze.new, wsub])]
      have h3 : (Maze.new 1 0).candE 0 0 = none := by
        unfold Maze.candE
        rw [if_pos (by norm_num [Maze.new, wsub])]
        rw [new_zero_sq 1 0 (by omega)]
        rfl
      simp [Maze.candidate_directions, h1, h2, h3]
    · have h2 : (Maze.new R 0).candS 0 0 = none := by
        unfold Maze.candS
        rw [if_pos (by
          show (0 : Nat) < wsub R 1
          rw [wsub_one R (by omega)]
          omega)]
        rw [new_zero_sq R 0 (by omega)]
        rfl
      simp [Maze.candidate_directions, h1, h2]

/-- **C5** (refuted: the claim is right, the code is wrong).  Running
`generate_perfect` on a grid with zero rows or zero columns is a Rust
panic, not a silent no-op: `pick_direction` computes `self.rows - 1` /
`self.cols - 1` with wrapping `u32` subtraction and then indexes the empty
square vector out of bounds. -/
theorem generate_perfect_zero_grid_crashes (oracle : Nat → Nat)
    (fuel R C : Nat) (h : R * C = 0) :
    (Maze.new R C).generate_perfect oracle fuel = GenResult.crash := by
  unfold Maze.generate_perfect Maze.generator_growing_tree
  have hpd : (Maze.new R C).pick_direction 0 0 (oracle 0) = none := by
    unfold Maze.pick_direction
    rw [zero_grid_candidates_none R C h]
  rw [hpd]

/-- Witness for C5's refutation at the concrete failing input
`Maze::new(0, 0)`. -/
theorem generate_perfect_zero_grid_crashes_witness :
    (Maze.new 0 0).generate_perfect (fun _ => 0) 100 = GenResult.crash :=
  generate_perfect_zero_grid_crashes (fun _ => 0) 100 0 0 (by decide)

/-! ## Claim C6 (code bug): 1×1 rooms are never tagged, so rooms overlap -/

/-- **C6** (refuted: the claim is right, the code is wrong).  With room
sizes fixed to 1×1, `carve_room` carves no interior wall, so an accepted
room stamps no cell id.  On an 8×8 grid with the oracle constantly 2, both
sampled rooms are the 1×1 rectangle at `(3, 3)`; both pass
`rooms_overlap`, `make_rooms` reports two placed rooms, and the grid is
completely untouched — two distinct placed rooms with identical
(overlapping) footprints. -/
theorem make_rooms_overlapping_one_by_one :
    (Maze.new 8 8).make_rooms (fun _ => 2) 2 1 1 1 1 =
      some (2, { Maze.new 8 8 with num_rooms := 2 }) := by decide

/-! ## Claim C10: the print pillar check indexes out of bounds -/

theorem southLineGo_some (m : Maze) (y : Nat) :
    ∀ n x, y * m.cols + x + n ≤ m.sq.length →
      (∀ k, k < n → (m.sq.getD (y * m.cols + (x + k))
        Square.new).is_wall_present DIR_SOUTH = true) →
      ∃ s, m.southLineGo y x n = some s := by
  intro n
  induction n with
  | zero => exact fun x _ _ => ⟨"", rfl⟩
  | succ k ih =>
    intro x hb hput
    have hx : y * m.cols + x < m.sq.length := by omega
    obtain ⟨s1, hs1⟩ := ih (x + 1) (by omega)
      (fun j hj => by
        have := hput (j + 1) (by omega)
        simpa [Nat.add_assoc, Nat.add_comm 1 j] using this)
    refine ⟨"XX" ++ s1, ?_⟩
    have h0 := hput 0 (by omega)
    simp only [Nat.add_zero] at h0
    rw [Maze.southLineGo, get?_eq_getD _ _ Square.new hx]
    simp only [Option.some.injEq]
    rw [if_pos h0, hs1]
    rfl

theorem southLineGo_none (m : Maze) (y : Nat) :
    ∀ n x, 0 < n → y * m.cols + x + n = m.sq.length →
      ((m.sq.getD (y * m.cols + (x + n - 1))
        Square.new).is_wall_present DIR_SOUTH = false) →
      (∀ k, k + 1 < n → (m.sq.getD (y * m.cols + (x + k))
        Square.new).is_wall_present DIR_SOUTH = true) →
      m.southLineGo y x n = none := by
  intro n
  induction n with
  | zero => omega
  | succ k ih =>
    intro x _ hb hlast hpres
    have hx : y * m.cols + x < m.sq.length := by omega
    rcases Nat.eq_zero_or_pos k with hk | hk
    · subst hk
      simp only [Nat.add_sub_cancel, Nat.add_zero] at hlast
      rw [Maze.southLineGo, get?_eq_getD _ _ Square.new hx]
      simp only []
      rw [if_neg (by rw [hlast]; simp)]
      have hnone : m.sq.get? (y * m.cols + x + 1) = none := by
        rw [List.get?_eq_none]
        omega
      rw [hnone]
    · have h0 := hpres 0 (by omega)
      simp only [Nat.add_zero] at h0
      have hrec : m.southLineGo y (x + 1) k = none := by
        refine ih (x + 1) hk (by omega) ?_ ?_
        · have : x + 1 + k - 1 = x + (k + 1) - 1 := by omega
          rw [this]
          exact hlast
        · intro j hj
          have := hpres (j + 1) (by omega)
          simpa [Nat.add_assoc, Nat.add_comm 1 j] using this
      rw [Maze.southLineGo, get?_eq_getD _ _ Square.new hx]
      simp only []
      rw [if_pos h0, hrec]
      rfl

theorem eastLineGo_some (m : Maze) (y : Nat) :
    ∀ n x, y * m.cols + x + n ≤ m.sq.length →
      ∃ s, m.eastLineGo y x n = some s := by
  intro n
  induction n with
  | zero => exact fun x _ => ⟨"", rfl⟩
  | succ k ih =>
    intro x hb
    have hx : y * m.cols + x < m.sq.length := by omega
    obtain ⟨s1, hs1⟩ := ih (x + 1) (by omega)
    refine ⟨(if (m.sq.getD (y * m.cols + x) Square.new).is_wall_present
      DIR_EAST = true then " X" else "  ") ++ s1, ?_⟩
    rw [Maze.eastLineGo, get?_eq_getD _ _ Square.new hx, hs1]
    rfl

theorem printRowsGo_none (m : Maze) (hC : 0 < m.cols)
    (hlen : m.sq.length = m.rows * m.cols)
    (hsouth : ∀ y x, y < m.rows → x < m.cols →
      ¬(y = m.rows - 1 ∧ x = m.cols - 1) →
      (m.sq.getD (y * m.cols + x) Square.new).is_wall_present DIR_SOUTH =
        true)
    (hbr : (m.sq.getD ((m.rows - 1) * m.cols + (m.cols - 1))
      Square.new).is_wall_present DIR_SOUTH = false) :
    ∀ n y, y + n = m.rows → 0 < n → m.printRowsGo y n = none := by
  intro n
  induction n with
  | zero => omega
  | succ k ih =>
    intro y hy _
    have hyR : y < m.rows := by omega
    have hrowlen : y * m.cols + 0 + m.cols ≤ m.sq.length := by
      rw [hlen]
      have := off_lt (m.cols - 1) y m.rows m.cols (by omega) hyR
      omega
    obtain ⟨e, he⟩ := eastLineGo_some m y m.cols 0 hrowlen
    rcases Nat.eq_zero_or_pos k with hk | hk
    · subst hk
      have hylast : y = m.rows - 1 := by omega
      have hs : m.southLineGo y 0 m.cols = none := by
        refine southLineGo_none m y m.cols 0 (by omega) ?_ ?_ ?_
        · rw [hlen, hylast]
          have h1 : (m.rows - 1) * m.cols + m.cols = m.rows * m.cols := by
            have h2 : m.rows - 1 + 1 = m.rows := by omega
            calc (m.rows - 1) * m.cols + m.cols
                = (m.rows - 1 + 1) * m.cols := by ring
              _ = m.rows * m.cols := by rw [h2]
          omega
        · simpa [hylast] using hbr
        · intro j hj
          exact hsouth y (0 + j) hyR (by omega) (by omega)
      rw [Maze.printRowsGo, he, hs]
      rfl
    · have hs : ∃ s, m.southLineGo y 0 m.cols = some s := by
        refine southLineGo_some m y m.cols 0 hrowlen ?_
        intro j hj
        exact hsouth y (0 + j) hyR (by omega) (by omega)
      obtain ⟨s, hs⟩ := hs
      have hrest : m.printRowsGo (y + 1) k = none := ih (y + 1) (by omega) hk
      rw [Maze.printRowsGo, he, hs, hrest]
      rfl

/-- **C10.** `Maze::print`'s room-pillar cosmetic check is not
in-bounds-safe: when a cell's south wall is absent it reads flat index
`y * cols + x + 1`, and for the bottom-right cell — a state reachable by
calling the public `break_wall` on that square — that index equals
`rows * cols`, one past the end of the square vector, so `print` panics. -/
theorem print_panics_bottom_right_south (R C : Nat) (hR : 1 ≤ R)
    (hC : 1 ≤ C) :
    ({ Maze.new R C with sq := ((Maze.new R C).sq.set ((R - 1) * C + (C - 1))
        (((Maze.new R C).sq.getD ((R - 1) * C + (C - 1))
          Square.new).break_wall DIR_SOUTH)) } : Maze).print = none := by
  have hofflt : (R - 1) * C + (C - 1) < R * C :=
    off_lt (C - 1) (R - 1) R C (by omega) (by omega)
  have hreplen : (List.replicate (R * C) Square.new).length = R * C := by
    simp
  have hget0 : (Maze.new R C).sq.getD ((R - 1) * C + (C - 1)) Square.new =
      Square.new := by
    show (List.replicate (R * C) Square.new).getD _ Square.new = Square.new
    exact getD_replicate _ _ _ _ hofflt
  set M : Maze :=
    { Maze.new R C with sq := ((Maze.new R C).sq.set ((R - 1) * C + (C - 1))
        (((Maze.new R C).sq.getD ((R - 1) * C + (C - 1))
          Square.new).break_wall DIR_SOUTH)) } with hM
  have hrows : M.rows = R := rfl
  have hcols : M.cols = C := rfl
  have hlen : M.sq.length = M.rows * M.cols := by
    rw [hM]
    show ((Maze.new R C).sq.set _ _).length = R * C
    rw [List.length_set]
    exact hreplen
  have hnewlen : (Maze.new R C).sq.length = R * C := hreplen
  have hgetbr : M.sq.getD ((R - 1) * C + (C - 1)) Square.new =
      Square.new.break_wall DIR_SOUTH := by
    rw [hM]
    show ((Maze.new R C).sq.set _ _).getD _ Square.new = _
    rw [getD_set_self _ _ _ _ (by rw [hnewlen]; exact hofflt), hget0]
  have hgetother : ∀ i, i ≠ (R - 1) * C + (C - 1) → i < R * C →
      M.sq.getD i Square.new = Square.new := by
    intro i hi hilt
    rw [hM]
    show ((Maze.new R C).sq.set _ _).getD i Square.new = _
    rw [getD_set_other _ _ _ (fun hc => hi hc.symm)]
    exact getD_replicate _ _ _ _ hilt
  have hbody : M.printRowsGo 0 M.rows = none := by
    refine printRowsGo_none M (by rw [hcols]; omega) hlen ?_ ?_ M.rows 0
      (by omega) (by rw [hrows]; omega)
    · intro y x hy hx hne
      rw [hcols] at hx
      rw [hrows] at hy
      have hioff : y * M.cols + x ≠ (R - 1) * C + (C - 1) := by
        rw [hcols]
        intro hco
        obtain ⟨hx1, hy1⟩ := off_inj C x y (C - 1) (R - 1) hx (by omega) hco
        rw [hrows, hcols] at hne
        exact hne ⟨hy1, hx1⟩
      have hilt : y * M.cols + x < R * C := by
        rw [hcols]
        exact off_lt x y R C hx hy
      rw [hgetother _ hioff hilt]
      rfl
    · rw [hrows, hcols, hgetbr]
      rfl
  rw [Maze.print]
  rw [hbody]
  rfl

/-- Witness for C10 at a concrete input: a 2×2 grid whose bottom-right
square had its south wall broken through `break_wall`. -/
theorem print_panics_bottom_right_south_witness :
    ({ Maze.new 2 2 with sq := ((Maze.new 2 2).sq.set ((2 - 1) * 2 + (2 - 1))
        (((Maze.new 2 2).sq.getD ((2 - 1) * 2 + (2 - 1))
          Square.new).break_wall DIR_SOUTH)) } : Maze).print = none :=
  print_panics_bottom_right_south 2 2 (by decide) (by decide)

/-! ## Termination of the growing-tree loop -/

theorem getD_of_get? {α : Type} (l : List α) (i : Nat) (a d : α)
    (h : l.get? i = some a) : l.getD i d = a := by
  induction l generalizing i with
  | nil => simp at h
  | cons hd tl ih =>
    cases i with
    | zero => simpa using h
    | succ n => simpa [List.getD] using ih n (by simpa using h)

theorem lt_length_of_get? {α : Type} (l : List α) (i : Nat) (a : α)
    (h : l.get? i = some a) : i < l.length := by
  induction l generalizing i with
  | nil => simp at h
  | cons hd tl ih =>
    cases i with
    | zero => simp
    | succ n => simpa using ih n (by simpa using h)

theorem candN_mem (m : Maze) (x y : Nat) (a : List Nat)
    (ha : m.candN x y = some a) (d : Nat) (hd : d ∈ a) :
    d = 0 ∧ ∃ s, m.sq.get? (m.get_offset x (y - 1)) = some s ∧
      s.is_carved = false := by
  unfold Maze.candN at ha
  by_cases h0 : 0 < y
  · rw [if_pos h0] at ha
    rcases hg : m.sq.get? (m.get_offset x (y - 1)) with _ | s
    · rw [hg] at ha; exact absurd ha (by simp)
    · rw [hg] at ha
      simp only [Option.some.injEq] at ha
      rw [← ha] at hd
      by_cases hc : s.is_carved = false
      · rw [if_pos hc] at hd
        simp only [List.mem_singleton] at hd
        exact ⟨hd, s, rfl, hc⟩
      · rw [if_neg hc] at hd
        simp at hd
  · rw [if_neg h0] at ha
    simp only [Option.some.injEq] at ha
    rw [← ha] at hd
    simp at hd

theorem candS_mem (m : Maze) (x y : Nat) (a : List Nat)
    (ha : m.candS x y = some a) (d : Nat) (hd : d ∈ a) :
    d = 1 ∧ ∃ s, m.sq.get? (m.get_offset x (y + 1)) = some s ∧
      s.is_carved = false := by
  unfold Maze.candS at ha
  by_cases h0 : y < wsub m.rows 1
  · rw [if_pos h0] at ha
    rcases hg : m.sq.get? (m.get_offset x (y + 1)) with _ | s
    · rw [hg] at ha; exact absurd ha (by simp)
    · rw [hg] at ha
      simp only [Option.some.injEq] at ha
      rw [← ha] at hd
      by_cases hc : s.is_carved = false
      · rw [if_pos hc] at hd
        simp only [List.mem_singleton] at hd
        exact ⟨hd, s, rfl, hc⟩
      · rw [if_neg hc] at hd
        simp at hd
  · rw [if_neg h0] at ha
    simp only [Option.some.injEq] at ha
    rw [← ha] at hd
    simp at hd

theorem candE_mem (m : Maze) (x y : Nat) (a : List Nat)
    (ha : m.candE x y = some a) (d : Nat) (hd : d ∈ a) :
    d = 2 ∧ ∃ s, m.sq.get? (m.get_offset (x + 1) y) = some s ∧
      s.is_carved = false := by
  unfold Maze.candE at ha
  by_cases h0 : x < wsub m.cols 1
  · rw [if_pos h0] at ha
    rcases hg : m.sq.get? (m.get_offset (x + 1) y) with _ | s
    · rw [hg] at ha; exact absurd ha (by simp)
    · rw [hg] at ha
      simp only [Option.some.injEq] at ha
      rw [← ha] at hd
      by_cases hc : s.is_carved = false
      · rw [if_pos hc] at hd
        simp only [List.mem_singleton] at hd
        exact ⟨hd, s, rfl, hc⟩
      · rw [if_neg hc] at hd
        simp at hd
  · rw [if_neg h0] at ha
    simp only [Option.some.injEq] at ha
    rw [← ha] at hd
    simp at hd

theorem candW_mem (m : Maze) (x y : Nat) (a : List Nat)
    (ha : m.candW x y = some a) (d : Nat) (hd : d ∈ a) :
    d = 3 ∧ ∃ s, m.sq.get? (m.get_offset (x - 1) y) = some s ∧
      s.is_carved = false := by
  unfold Maze.candW at ha
  by_cases h0 : 0 < x
  · rw [if_pos h0] at ha
    rcases hg : m.sq.get? (m.get_offset (x - 1) y) with _ | s
    · rw [hg] at ha; exact absurd ha (by simp)
    · rw [hg] at ha
      simp only [Option.some.injEq] at ha
      rw [← ha] at hd
      by_cases hc : s.is_carved = false
      · rw [if_pos hc] at hd
        simp only [List.mem_singleton] at hd
        exact ⟨hd, s, rfl, hc⟩
      · rw [if_neg hc] at hd
        simp at hd
  · rw [if_neg h0] at ha
    simp only [Option.some.injEq] at ha
    rw [← ha] at hd
    simp at hd

theorem candidates_split (m : Maze) (x y : Nat) (l : List Nat)
    (h : m.candidate_directions x y = some l) :
    ∃ a b c d, m.candN x y = some a ∧ m.candS x y = some b ∧
      m.candE x y = some c ∧ m.candW x y = some d ∧
      l = a ++ (b ++ (c ++ d)) := by
  unfold Maze.candidate_directions at h
  rcases ha : m.candN x y with _ | a <;> rw [ha] at h
  · simp at h
  rcases hb : m.candS x y with _ | b <;> rw [hb] at h
  · simp at h
  rcases hc : m.candE x y with _ | c <;> rw [hc] at h
  · simp at h
  rcases hd : m.candW x y with _ | d <;> rw [hd] at h
  · simp at h
  refine ⟨a, b, c, d, rfl, rfl, rfl, rfl, ?_⟩
  simpa using h.symm

theorem cand_mem_dest (m : Maze) (x y : Nat) (l : List Nat)
    (h : m.candidate_directions x y = some l) (d : Nat) (hd : d ∈ l) :
    (d = 0 ∧ ∃ s, m.sq.get? (m.get_offset x (y - 1)) = some s ∧
      s.is_carved = false) ∨
    (d = 1 ∧ ∃ s, m.sq.get? (m.get_offset x (y + 1)) = some s ∧
      s.is_carved = false) ∨
    (d = 2 ∧ ∃ s, m.sq.get? (m.get_offset (x + 1) y) = some s ∧
      s.is_carved = false) ∨
    (d = 3 ∧ ∃ s, m.sq.get? (m.get_offset (x - 1) y) = some s ∧
      s.is_carved = false) := by
  obtain ⟨a, b, c, dl, ha, hb, hc, hdl, hl⟩ := candidates_split m x y l h
  subst hl
  rcases List.mem_append.mp hd with h1 | h1
  · exact Or.inl (candN_mem m x y a ha d h1)
  rcases List.mem_append.mp h1 with h2 | h2
  · exact Or.inr (Or.inl (candS_mem m x y b hb d h2))
  rcases List.mem_append.mp h2 with h3 | h3
  · exact Or.inr (Or.inr (Or.inl (candE_mem m x y c hc d h3)))
  · exact Or.inr (Or.inr (Or.inr (candW_mem m x y dl hdl d h3)))

theorem uncarved_le (m : Maze) : m.uncarvedCount ≤ m.sq.length := by
  unfold Maze.uncarvedCount
  calc ((Finset.range m.sq.length).filter
      (fun i => (m.sq.getD i Square.new).is_carved = false)).card
      ≤ (Finset.range m.sq.length).card := Finset.card_le_card
        (Finset.filter_subset _ _)
    _ = m.sq.length := Finset.card_range _

theorem uncarved_lt (m m' : Maze) (hlen : m'.sq.length = m.sq.length)
    (hmono : ∀ i, (m.sq.getD i Square.new).is_carved = true →
      (m'.sq.getD i Square.new).is_carved = true)
    (j : Nat) (hj : j < m.sq.length)
    (hjm : (m.sq.getD j Square.new).is_carved = false)
    (hjm' : (m'.sq.getD j Square.new).is_carved = true) :
    m'.uncarvedCount < m.uncarvedCount := by
  unfold Maze.uncarvedCount
  rw [hlen]
  apply Finset.card_lt_card
  rw [Finset.ssubset_iff_of_subset]
  · refine ⟨j, ?_, ?_⟩
    · rw [Finset.mem_filter, Finset.mem_range]
      exact ⟨hj, hjm⟩
    · rw [Finset.mem_filter]
      rintro ⟨-, hcon⟩
      rw [hjm'] at hcon
      cases hcon
  · intro i hi
    rw [Finset.mem_filter, Finset.mem_range] at hi ⊢
    refine ⟨hi.1, ?_⟩
    rcases hcm : (m.sq.getD i Square.new).is_carved with _ | _
    · rfl
    · have := hmono i hcm
      rw [hi.2] at this
      cases this

theorem carve_candidate_step (m : Maze) (x y d : Nat) (id : Int) (co : Bool)
    (hwf : m.wf) (l : List Nat) (hcd : m.candidate_directions x y = some l)
    (hdl : d ∈ l) (m' : Maze)
    (hcv : m.carve x y d id co = (Except.ok (), m')) :
    m'.rows = m.rows ∧ m'.cols = m.cols ∧ m'.wf ∧
    m'.uncarvedCount < m.uncarvedCount := by
  have hok : (m.carve x y d id co).1 = Except.ok () := by rw [hcv]
  obtain ⟨hy, hx, hdir⟩ := (carve_isOk_iff m x y d id co).mp hok
  have hdest := cand_mem_dest m x y l hcd d hdl
  obtain ⟨heq, hne, h1, h2, hd4, hdd4⟩ :=
    carve_ok_full m x y d id co hwf hx hy hdir
  have hm' : m' = carveAux m (m.get_offset x y)
      (m.get_offset (neighborCoord ⟨x, y⟩ d).x
        (neighborCoord ⟨x, y⟩ d).y) d (oppositeDir d) id co :=
    congrArg Prod.snd (hcv.symm.trans heq)
  have huncarved : (m.sq.getD (m.get_offset (neighborCoord ⟨x, y⟩ d).x
      (neighborCoord ⟨x, y⟩ d).y) Square.new).is_carved = false := by
    rcases hdir with ⟨hd0, -⟩ | ⟨hd0, -⟩ | ⟨hd0, -⟩ | ⟨hd0, -⟩ <;> subst hd0 <;>
      simp only [neighborCoord] <;>
      rcases hdest with ⟨habs, hrest⟩ | ⟨habs, hrest⟩ | ⟨habs, hrest⟩ |
        ⟨habs, hrest⟩ <;>
      first
        | (obtain ⟨s, hg, hc⟩ := hrest
           rw [getD_of_get? _ _ s _ hg]
           exact hc)
        | omega
  subst hm'
  refine ⟨rfl, rfl, ?_, ?_⟩
  · show (carveAux _ _ _ _ _ _ _).sq.length = _
    rw [carveAux_length, carveAux_rows, carveAux_cols]
    exact hwf
  · refine uncarved_lt m _ (carveAux_length m _ _ d _ id co)
      (fun i hci => carveAux_carved_mono m _ _ d _ id co hne h1 h2 i hci)
      (m.get_offset (neighborCoord ⟨x, y⟩ d).x (neighborCoord ⟨x, y⟩ d).y)
      h2 huncarved ?_
    exact (carveAux_carved m _ _ d _ id co hne h1 h2 hd4 hdd4).2

theorem pick_true_mem (m : Maze) (x y r dir : Nat)
    (h : m.pick_direction x y r = some (true, dir)) :
    ∃ l, m.candidate_directions x y = some l ∧ dir ∈ l := by
  unfold Maze.pick_direction at h
  rcases hcd : m.candidate_directions x y with _ | l <;> rw [hcd] at h
  · cases h
  · dsimp only at h
    by_cases hl : l.length = 0
    · rw [if_pos hl] at h
      cases h
    · rw [if_neg hl] at h
      injection h with h'
      have hdir : dir = l.getD (r % l.length) 0 := (Prod.mk.injEq _ _ _ _
        |>.mp h').2.symm
      refine ⟨l, rfl, ?_⟩
      rw [hdir]
      exact getD_mem l (fun hc => hl (by rw [hc]; rfl)) r

theorem gtLoop_no_fuelOut (oracle : Nat → Nat) :
    ∀ fuel k m visited cur, Maze.wf m →
      2 * m.uncarvedCount + visited.length < fuel →
      m.gtLoop oracle fuel k visited cur ≠ GenResult.fuelOut := by
  intro fuel
  induction fuel with
  | zero =>
    intro k m visited cur _ hm
    omega
  | succ f ih =>
    intro k m visited cur hwf hm
    cases visited with
    | nil =>
      rw [Maze.gtLoop]
      intro hcon
      cases hcon
    | cons top rest =>
      rw [Maze.gtLoop]
      rcases hpd : m.pick_direction cur.x cur.y (oracle k) with _ | p
      · intro hcon
        cases hcon
      · rcases p with ⟨b, dir⟩
        cases b
        · dsimp only
          exact ih k m rest top hwf (by simp at hm ⊢; omega)
        · dsimp only
          obtain ⟨l, hcd, hmem⟩ := pick_true_mem m cur.x cur.y (oracle k)
            dir hpd
          rcases hcv : m.carve cur.x cur.y dir ID_MAZE_PATH false with
            ⟨res, m'⟩
          rcases res with s | u
          · intro hcon
            cases hcon
          · obtain ⟨hrows, hcols, hwf', hlt⟩ := carve_candidate_step m
              cur.x cur.y dir ID_MAZE_PATH false hwf l hcd hmem m'
              (by rw [hcv])
            have hm' : 2 * m'.uncarvedCount + (cur :: top :: rest).length
                < f := by
              simp at hm ⊢
              omega
            rcases dir with _ | _ | _ | _ | d
            · exact ih (k + 1) m' (cur :: top :: rest) _ hwf' hm'
            · exact ih (k + 1) m' (cur :: top :: rest) _ hwf' hm'
            · exact ih (k + 1) m' (cur :: top :: rest) _ hwf' hm'
            · exact ih (k + 1) m' (cur :: top :: rest) _ hwf' hm'
            · intro hcon
              cases hcon

theorem generator_no_fuelOut (oracle : Nat → Nat) (fuel : Nat) (m : Maze)
    (sx sy : Nat) (hwf : m.wf)
    (hfuel : 2 * (m.rows * m.cols) + 2 ≤ fuel) :
    m.generator_growing_tree oracle fuel sx sy ≠ GenResult.fuelOut := by
  rw [Maze.generator_growing_tree]
  rcases hpd : m.pick_direction sx sy (oracle 0) with _ | p
  · intro hcon
    cases hcon
  · rcases p with ⟨b, dir⟩
    cases b
    · intro hcon
      cases hcon
    · dsimp only
      obtain ⟨l, hcd, hmem⟩ := pick_true_mem m sx sy (oracle 0) dir hpd
      rcases hcv : m.carve sx sy dir ID_MAZE_PATH false with ⟨res, m'⟩
      rcases res with s | u
      · intro hcon
        cases hcon
      · obtain ⟨hrows, hcols, hwf', hlt⟩ := carve_candidate_step m sx sy
          dir ID_MAZE_PATH false hwf l hcd hmem m' (by rw [hcv])
        have hcount : m.uncarvedCount ≤ m.rows * m.cols := by
          have := uncarved_le m
          rw [hwf] at this
          exact this
        have hm' : 2 * m'.uncarvedCount +
            ([(⟨sx, sy⟩ : Coord)]).length < fuel := by
          simp
          omega
        rcases dir with _ | _ | _ | _ | d
        · exact gtLoop_no_fuelOut oracle fuel 1 m' _ _ hwf' hm'
        · exact gtLoop_no_fuelOut oracle fuel 1 m' _ _ hwf' hm'
        · exact gtLoop_no_fuelOut oracle fuel 1 m' _ _ hwf' hm'
        · exact gtLoop_no_fuelOut oracle fuel 1 m' _ _ hwf' hm'
        · intro hcon
          cases hcon

/-! ## Claim C8 -/

/-- **C8.** For every well-formed grid with at least one row and one
column, the growing-tree generator terminates and its cost is bounded by
the grid size: with fuel `2·R·C + 2` — every loop iteration either pops
the stack or carves a previously uncarved cell — the loop never exhausts
its fuel, for every random oracle. -/
theorem generator_growing_tree_terminates (oracle : Nat → Nat)
    (fuel : Nat) (m : Maze) (hwf : m.wf) (hR : 1 ≤ m.rows)
    (hC : 1 ≤ m.cols) (hfuel : 2 * (m.rows * m.cols) + 2 ≤ fuel) :
    m.generator_growing_tree oracle fuel 0 0 ≠ GenResult.fuelOut :=
  generator_no_fuelOut oracle fuel m 0 0 hwf hfuel

/-- Witness for C8 at a concrete input: a fresh 2×2 grid with fuel 10. -/
theorem generator_growing_tree_terminates_witness :
    (Maze.new 2 2).generator_growing_tree (fun _ => 0) 10 0 0 ≠
      GenResult.fuelOut :=
  generator_growing_tree_terminates (fun _ => 0) 10 (Maze.new 2 2)
    (by rfl) (by decide) (by decide) (by decide)

/-! ## Reachability infrastructure -/

theorem adjOpen_symm (m : Maze) (p q : Coord) (h : adjOpen m p q) :
    adjOpen m q p := by
  obtain ⟨⟨hp, hq, -⟩, hcase⟩ := h
  rcases hcase with ⟨h1, h2, h3, h4⟩ | ⟨h1, h2, h3, h4⟩ | ⟨h1, h2, h3, h4⟩ |
    ⟨h1, h2, h3, h4⟩
  · exact ⟨⟨hq, hp, Or.inr (Or.inl ⟨h1.symm, h2⟩)⟩,
      Or.inr (Or.inl ⟨h1.symm, h2, h4, h3⟩)⟩
  · exact ⟨⟨hq, hp, Or.inl ⟨h1.symm, h2⟩⟩, Or.inl ⟨h1.symm, h2, h4, h3⟩⟩
  · exact ⟨⟨hq, hp, Or.inr (Or.inr (Or.inr ⟨h1.symm, h2⟩))⟩,
      Or.inr (Or.inr (Or.inr ⟨h1.symm, h2, h4, h3⟩))⟩
  · exact ⟨⟨hq, hp, Or.inr (Or.inr (Or.inl ⟨h1.symm, h2⟩))⟩,
      Or.inr (Or.inr (Or.inl ⟨h1.symm, h2, h4, h3⟩))⟩

theorem Reach_symm (m : Maze) (p q : Coord) (h : Reach m p q) :
    Reach m q p := by
  induction h with
  | refl => exact Relation.ReflTransGen.refl
  | tail hab hbc ih =>
    exact Relation.ReflTransGen.trans
      (Relation.ReflTransGen.single (adjOpen_symm m _ _ hbc)) ih

theorem Reach_trans (m : Maze) (p q r : Coord) (h1 : Reach m p q)
    (h2 : Reach m q r) : Reach m p r :=
  Relation.ReflTransGen.trans h1 h2

theorem Reach_mono (m M : Maze) (hrows : M.rows = m.rows)
    (hcols : M.cols = m.cols)
    (hw : ∀ i e, (m.sq.getD i Square.new).is_wall_present e = false →
      (M.sq.getD i Square.new).is_wall_present e = false)
    (p q : Coord) (h : Reach m p q) : Reach M p q := by
  refine Relation.ReflTransGen.mono ?_ h
  intro a b hab
  obtain ⟨⟨ha, hb, hadj⟩, hcase⟩ := hab
  have hwall : ∀ c d, m.wallAbsent c d → M.wallAbsent c d := by
    intro c d hcd
    show (M.sq.getD (M.get_offset c.x c.y) Square.new).is_wall_present d =
      false
    have hoo : M.get_offset c.x c.y = m.get_offset c.x c.y := by
      unfold Maze.get_offset
      rw [hcols]
    rw [hoo]
    exact hw _ d hcd
  refine ⟨⟨?_, ?_, ?_⟩, ?_⟩
  · rw [hrows, hcols]; exact ha
  · rw [hrows, hcols]; exact hb
  · exact hadj
  · rcases hcase with ⟨h1, h2, h3, h4⟩ | ⟨h1, h2, h3, h4⟩ |
      ⟨h1, h2, h3, h4⟩ | ⟨h1, h2, h3, h4⟩
    · exact Or.inl ⟨h1, h2, hwall _ _ h3, hwall _ _ h4⟩
    · exact Or.inr (Or.inl ⟨h1, h2, hwall _ _ h3, hwall _ _ h4⟩)
    · exact Or.inr (Or.inr (Or.inl ⟨h1, h2, hwall _ _ h3, hwall _ _ h4⟩))
    · exact Or.inr (Or.inr (Or.inr ⟨h1, h2, hwall _ _ h3, hwall _ _ h4⟩))

theorem coord_eq (p q : Coord) (h1 : p.x = q.x) (h2 : p.y = q.y) :
    p = q := by
  cases p
  cases q
  simp only at h1 h2
  rw [h1, h2]

theorem inv_step (R C : Nat) (st : Coord) (m : Maze) (visited : List Coord)
    (cur : Coord) (hinv : Maze.Inv R C st m visited cur) (dir : Nat)
    (hdir : (dir = 0 ∧ 0 < cur.y) ∨ (dir = 1 ∧ cur.y + 1 < R) ∨
      (dir = 2 ∧ cur.x + 1 < C) ∨ (dir = 3 ∧ 0 < cur.x))
    (huncv : ¬ m.carvedAt (neighborCoord cur dir)) (id : Int) (co : Bool) :
    Maze.Inv R C st
      (carveAux m (m.get_offset cur.x cur.y)
        (m.get_offset (neighborCoord cur dir).x (neighborCoord cur dir).y)
        dir (oppositeDir dir) id co)
      (cur :: visited) (neighborCoord cur dir) ∧
    (carveAux m (m.get_offset cur.x cur.y)
        (m.get_offset (neighborCoord cur dir).x (neighborCoord cur dir).y)
        dir (oppositeDir dir) id co).uncarvedCount < m.uncarvedCount := by
  obtain ⟨hrows, hcols, hwf, hcin, hvin, hccv, hvcv, hlast, hfront, hreach⟩ :=
    hinv
  have hcx := hcin.1
  have hcy := hcin.2
  have hxC : cur.x < m.cols := by rw [hcols]; exact hcx
  have hyR : cur.y < m.rows := by rw [hrows]; exact hcy
  have hdir' : (dir = 0 ∧ 0 < cur.y) ∨ (dir = 1 ∧ cur.y + 1 < m.rows) ∨
      (dir = 2 ∧ cur.x + 1 < m.cols) ∨ (dir = 3 ∧ 0 < cur.x) := by
    rw [hrows, hcols]
    exact hdir
  obtain ⟨-, hne, h1, h2, hd4, hdd4⟩ :=
    carve_ok_full m cur.x cur.y dir id co hwf hxC hyR hdir'
  have hinb_nbr : inb R C (neighborCoord cur dir) := by
    rcases hdir with ⟨hd0, hc⟩ | ⟨hd0, hc⟩ | ⟨hd0, hc⟩ | ⟨hd0, hc⟩ <;>
        subst hd0
    · exact ⟨hcx, by simp only [neighborCoord]; omega⟩
    · exact ⟨hcx, hc⟩
    · exact ⟨hc, hcy⟩
    · exact ⟨by simp only [neighborCoord]; omega, hcy⟩
  set nbr := neighborCoord cur dir with hnbrdef
  set off := m.get_offset cur.x cur.y with hoffdef
  set offn := m.get_offset nbr.x nbr.y with hoffndef
  set M := carveAux m off offn dir (oppositeDir dir) id co with hMdef
  have hMrows : M.rows = m.rows := by rw [hMdef]; rfl
  have hMcols : M.cols = m.cols := by rw [hMdef]; rfl
  have hMlen : M.sq.length = m.sq.length := by
    rw [hMdef]; exact carveAux_length m off offn dir (oppositeDir dir) id co
  have hMoff : ∀ a b : Nat, M.get_offset a b = m.get_offset a b := by
    intro a b
    unfold Maze.get_offset
    rw [hMcols]
  have hmono_idx : ∀ i, (m.sq.getD i Square.new).is_carved = true →
      (M.sq.getD i Square.new).is_carved = true := by
    rw [hMdef]
    exact fun i h =>
      carveAux_carved_mono m off offn dir (oppositeDir dir) id co hne h1 h2 i h
  have hwallmono : ∀ i e, (m.sq.getD i Square.new).is_wall_present e =
      false → (M.sq.getD i Square.new).is_wall_present e = false := by
    rw [hMdef]
    exact fun i e h =>
      carveAux_wall_mono m off offn dir (oppositeDir dir) id co hne h1 h2 i e h
  have hother : ∀ i, i ≠ off → i ≠ offn →
      M.sq.getD i Square.new = m.sq.getD i Square.new := by
    rw [hMdef]
    exact fun i hi1 hi2 =>
      carveAux_getD_other m off offn dir (oppositeDir dir) id co i hi1 hi2
  have hcarved_pair : (M.sq.getD off Square.new).is_carved = true ∧
      (M.sq.getD offn Square.new).is_carved = true := by
    rw [hMdef]
    exact carveAux_carved m off offn dir (oppositeDir dir) id co hne h1 h2
      hd4 hdd4
  have hwalls_pair : (M.sq.getD off Square.new).is_wall_present dir =
        false ∧
      (M.sq.getD offn Square.new).is_wall_present (oppositeDir dir) =
        false := by
    rw [hMdef]
    exact carveAux_walls m off offn dir (oppositeDir dir) id co hne h1 h2
      hd4 hdd4
  have hcAt : ∀ c : Coord, M.carvedAt c ↔
      (M.sq.getD (m.get_offset c.x c.y) Square.new).is_carved = true := by
    intro c
    unfold Maze.carvedAt Maze.sqAt
    rw [hMoff]
  have hcAtm : ∀ c : Coord, m.carvedAt c ↔
      (m.sq.getD (m.get_offset c.x c.y) Square.new).is_carved = true := by
    intro c
    unfold Maze.carvedAt Maze.sqAt
    exact Iff.rfl
  have hwA : ∀ (c : Coord) (d : Nat), M.wallAbsent c d ↔
      (M.sq.getD (m.get_offset c.x c.y) Square.new).is_wall_present d =
        false := by
    intro c d
    unfold Maze.wallAbsent Maze.sqAt
    rw [hMoff]
  have hMcur : M.carvedAt cur := by
    rw [hcAt]
    exact hcarved_pair.1
  have hMnbr : M.carvedAt nbr := by
    rw [hcAt]
    exact hcarved_pair.2
  have hmonoAt : ∀ c : Coord, m.carvedAt c → M.carvedAt c := by
    intro c hc
    rw [hcAt]
    exact hmono_idx _ ((hcAtm c).mp hc)
  have hReachMono : ∀ p q : Coord, Reach m p q → Reach M p q :=
    Reach_mono m M hMrows hMcols hwallmono
  have hoff_ne_coord : ∀ p : Coord, inb R C p → p ≠ cur →
      m.get_offset p.x p.y ≠ off := by
    intro p hp hpc hcon
    rw [hoffdef] at hcon
    unfold Maze.get_offset at hcon
    obtain ⟨he1, he2⟩ := off_inj m.cols p.x p.y cur.x cur.y
      (by rw [hcols]; exact hp.1) hxC hcon
    exact hpc (coord_eq p cur he1 he2)
  have hoffn_ne_coord : ∀ p : Coord, inb R C p → p ≠ nbr →
      m.get_offset p.x p.y ≠ offn := by
    intro p hp hpn hcon
    rw [hoffndef] at hcon
    unfold Maze.get_offset at hcon
    obtain ⟨he1, he2⟩ := off_inj m.cols p.x p.y nbr.x nbr.y
      (by rw [hcols]; exact hp.1) (by rw [hcols]; exact hinb_nbr.1) hcon
    exact hpn (coord_eq p nbr he1 he2)
  have hadjM : adjOpen M cur nbr := by
    have hwcur : M.wallAbsent cur dir := by
      rw [hwA]
      exact hwalls_pair.1
    have hwnbr : M.wallAbsent nbr (oppositeDir dir) := by
      rw [hwA]
      exact hwalls_pair.2
    have hgin : inb M.rows M.cols cur ∧ inb M.rows M.cols nbr := by
      rw [hMrows, hMcols]
      constructor
      · exact ⟨hxC, hyR⟩
      · exact ⟨by rw [hcols] at *; exact hinb_nbr.1,
          by rw [hrows] at *; exact hinb_nbr.2⟩
    rcases hdir with ⟨hd0, hc⟩ | ⟨hd0, hc⟩ | ⟨hd0, hc⟩ | ⟨hd0, hc⟩ <;>
        subst hd0
    · refine ⟨⟨hgin.1, hgin.2, ?_⟩, ?_⟩
      · exact Or.inr (Or.inl ⟨rfl, by
          simp only [hnbrdef, neighborCoord]; omega⟩)
      · exact Or.inr (Or.inl ⟨rfl, by
          simp only [hnbrdef, neighborCoord]; omega, hwcur, hwnbr⟩)
    · refine ⟨⟨hgin.1, hgin.2, ?_⟩, ?_⟩
      · exact Or.inl ⟨by simp [hnbrdef, neighborCoord],
          by simp [hnbrdef, neighborCoord]⟩
      · exact Or.inl ⟨by simp [hnbrdef, neighborCoord],
          by simp [hnbrdef, neighborCoord], hwcur, hwnbr⟩
    · refine ⟨⟨hgin.1, hgin.2, ?_⟩, ?_⟩
      · exact Or.inr (Or.inr (Or.inl ⟨by simp [hnbrdef, neighborCoord],
          by simp [hnbrdef, neighborCoord]⟩))
      · exact Or.inr (Or.inr (Or.inl ⟨by simp [hnbrdef, neighborCoord],
          by simp [hnbrdef, neighborCoord], hwcur, hwnbr⟩))
    · refine ⟨⟨hgin.1, hgin.2, ?_⟩, ?_⟩
      · exact Or.inr (Or.inr (Or.inr ⟨rfl, by
          simp only [hnbrdef, neighborCoord]; omega⟩))
      · exact Or.inr (Or.inr (Or.inr ⟨rfl, by
          simp only [hnbrdef, neighborCoord]; omega, hwcur, hwnbr⟩))
  constructor
  · refine ⟨by rw [hMrows, hrows], by rw [hMcols, hcols], ?_, hinb_nbr,
      ?_, hMnbr, ?_, ?_, ?_, ?_⟩
    · show M.sq.length = M.rows * M.cols
      rw [hMlen, hMrows, hMcols]
      exact hwf
    · intro c hc
      rcases List.mem_cons.mp hc with hc | hc
      · subst hc; exact hcin
      · exact hvin c hc
    · intro c hc
      rcases List.mem_cons.mp hc with hc | hc
      · subst hc; exact hMcur
      · exact hmonoAt c (hvcv c hc)
    · show lastCoord cur visited = st
      exact hlast
    · intro p hpin hpcv hpun
      by_cases hpn : p = nbr
      · exact Or.inl hpn
      by_cases hpc : p = cur
      · exact Or.inr (List.mem_cons.mpr (Or.inl hpc))
      have hpm : m.carvedAt p := by
        rw [hcAtm]
        have := (hcAt p).mp hpcv
        rw [hother _ (hoff_ne_coord p hpin hpc)
          (hoffn_ne_coord p hpin hpn)] at this
        exact this
      have hpunm : m.hasUncarvedNbr p := by
        obtain ⟨q, hadj, hqnc⟩ := hpun
        refine ⟨q, ?_, ?_⟩
        · rw [hMrows, hMcols] at hadj
          exact hadj
        · intro hqm
          exact hqnc (hmonoAt q hqm)
      rcases hfront p hpin hpm hpunm with hp | hp
      · exact Or.inr (List.mem_cons.mpr (Or.inl hp))
      · exact Or.inr (List.mem_cons.mpr (Or.inr hp))
    · intro p hpin hpcv
      by_cases hpn : p = nbr
      · subst hpn
        have hrc : Reach M st cur :=
          hReachMono st cur (hreach cur hcin hccv)
        exact Reach_trans M st cur nbr hrc
          (Relation.ReflTransGen.single hadjM)
      by_cases hpc : p = cur
      · subst hpc
        exact hReachMono st p (hreach p hcin hccv)
      have hpm : m.carvedAt p := by
        rw [hcAtm]
        have := (hcAt p).mp hpcv
        rw [hother _ (hoff_ne_coord p hpin hpc)
          (hoffn_ne_coord p hpin hpn)] at this
        exact this
      exact hReachMono st p (hreach p hpin hpm)
  · have hnbu : (m.sq.getD offn Square.new).is_carved = false := by
      rcases hb : (m.sq.getD offn Square.new).is_carved with _ | _
      · rfl
      · exact absurd ((hcAtm nbr).mpr hb) huncv
    refine uncarved_lt m M hMlen hmono_idx offn ?_ hnbu ?_
    · exact h2
    · exact hcarved_pair.2

theorem no_candidates_no_uncarved (m : Maze) (x y : Nat) (hwf : m.wf)
    (hx : x < m.cols) (hy : y < m.rows) (l : List Nat)
    (hcd : m.candidate_directions x y = some l) (hnil : l = []) :
    ¬ m.hasUncarvedNbr ⟨x, y⟩ := by
  rintro ⟨q, ⟨hpin, hqin, hadj⟩, hqnc⟩
  have hmem := candidates_mem m x y hwf hx hy l hcd
  subst hnil
  rcases hadj with ⟨h1, h2⟩ | ⟨h1, h2⟩ | ⟨h1, h2⟩ | ⟨h1, h2⟩
  · have hq : q = ⟨x, y + 1⟩ := coord_eq q ⟨x, y + 1⟩ (by simpa using h1)
      (by simpa using h2.symm)
    subst hq
    have : (DIR_SOUTH : Nat) ∈ ([] : List Nat) := (hmem DIR_SOUTH).mpr
      (Or.inr (Or.inl ⟨rfl, by simpa using hqin.2, hqnc⟩))
    simp at this
  · have hy0 : 0 < y := by
      have := h2
      simp only at this
      omega
    have hq : q = ⟨x, y - 1⟩ := coord_eq q ⟨x, y - 1⟩ (by simpa using h1)
      (by simp only at h2 ⊢; omega)
    subst hq
    have : (DIR_NORTH : Nat) ∈ ([] : List Nat) := (hmem DIR_NORTH).mpr
      (Or.inl ⟨rfl, hy0, hqnc⟩)
    simp at this
  · have hq : q = ⟨x + 1, y⟩ := coord_eq q ⟨x + 1, y⟩ (by simpa using h2.symm)
      (by simpa using h1)
    subst hq
    have : (DIR_EAST : Nat) ∈ ([] : List Nat) := (hmem DIR_EAST).mpr
      (Or.inr (Or.inr (Or.inl ⟨rfl, by simpa using hqin.1, hqnc⟩)))
    simp at this
  · have hx0 : 0 < x := by
      have := h2
      simp only at this
      omega
    have hq : q = ⟨x - 1, y⟩ := coord_eq q ⟨x - 1, y⟩
      (by simp only at h2 ⊢; omega) (by simpa using h1)
    subst hq
    have : (DIR_WEST : Nat) ∈ ([] : List Nat) := (hmem DIR_WEST).mpr
      (Or.inr (Or.inr (Or.inr ⟨rfl, hx0, hqnc⟩)))
    simp at this

theorem gtLoop_ok (oracle : Nat → Nat) (R C : Nat) (st : Coord) :
    ∀ fuel k m visited cur, Maze.Inv R C st m visited cur →
      2 * m.uncarvedCount + visited.length < fuel →
      ∃ m', m.gtLoop oracle fuel k visited cur = GenResult.ok m' ∧
        m'.rows = R ∧ m'.cols = C ∧ m'.wf ∧
        (∀ i, (m.sq.getD i Square.new).is_carved = true →
          (m'.sq.getD i Square.new).is_carved = true) ∧
        m'.carvedAt st ∧
        (∀ p, inb R C p → m'.carvedAt p → Reach m' st p) ∧
        (∀ p, inb R C p → m'.carvedAt p → m'.hasUncarvedNbr p → p = st) := by
  intro fuel
  induction fuel with
  | zero =>
    intro k m visited cur _ hm
    omega
  | succ f ih =>
    intro k m visited cur hinv hm
    obtain ⟨hrows, hcols, hwf, hcin, hvin, hccv, hvcv, hlast, hfront,
      hreach⟩ := hinv
    cases visited with
    | nil =>
      have hst : cur = st := hlast
      refine ⟨m, by rw [Maze.gtLoop], hrows, hcols, hwf, fun i h => h,
        ?_, hreach, ?_⟩
      · rw [← hst]
        exact hccv
      · intro p hpin hpcv hpun
        rcases hfront p hpin hpcv hpun with h | h
        · rw [h, hst]
        · simp at h
    | cons top rest =>
      have hxC : cur.x < m.cols := by rw [hcols]; exact hcin.1
      have hyR : cur.y < m.rows := by rw [hrows]; exact hcin.2
      obtain ⟨L, hcds⟩ : ∃ L, m.candidate_directions cur.x cur.y = some L :=
        ⟨_, candidates_some m cur.x cur.y hwf hxC hyR⟩
      by_cases hL : L = []
      · have hpd : m.pick_direction cur.x cur.y (oracle k) =
            some (false, 0) := by
          rw [pick_direction_eq m cur.x cur.y (oracle k) L hcds,
            if_pos (by rw [hL]; rfl)]
        rw [Maze.gtLoop, hpd]
        dsimp only
        have hinv' : Maze.Inv R C st m rest top := by
          refine ⟨hrows, hcols, hwf, hvin top (by simp), ?_,
            hvcv top (by simp), ?_, hlast, ?_, hreach⟩
          · intro c hc
            exact hvin c (by simp [hc])
          · intro c hc
            exact hvcv c (by simp [hc])
          · intro p hpin hpcv hpun
            rcases hfront p hpin hpcv hpun with h | h
            · exfalso
              subst h
              have hnu := no_candidates_no_uncarved m p.x p.y hwf
                (by rw [hcols]; exact hpin.1) (by rw [hrows]; exact hpin.2)
                L ?_ hL
              · exact hnu (by
                  have : (⟨p.x, p.y⟩ : Coord) = p := coord_eq _ _ rfl rfl
                  rw [this]
                  exact hpun)
              · exact hcds
            · exact (List.mem_cons.mp h).imp id (fun hh => hh)
        exact ih k m rest top hinv' (by simp at hm ⊢; omega)
      · obtain ⟨dir, hdirdef⟩ : ∃ d, d = L.getD (oracle k % L.length) 0 :=
          ⟨_, rfl⟩
        have hpd : m.pick_direction cur.x cur.y (oracle k) =
            some (true, dir) := by
          rw [pick_direction_eq m cur.x cur.y (oracle k) L hcds,
            if_neg (fun hc => hL (List.length_eq_zero.mp hc)), hdirdef]
        have hdirmem : dir ∈ L := by
          rw [hdirdef]
          exact getD_mem L hL (oracle k)
        have hfacts := (candidates_mem m cur.x cur.y hwf hxC hyR L hcds
          dir).mp hdirmem
        have hdir : (dir = 0 ∧ 0 < cur.y) ∨ (dir = 1 ∧ cur.y + 1 < R) ∨
            (dir = 2 ∧ cur.x + 1 < C) ∨ (dir = 3 ∧ 0 < cur.x) := by
          rw [← hrows, ← hcols]
          rcases hfacts with ⟨hd0, hb, -⟩ | ⟨hd0, hb, -⟩ | ⟨hd0, hb, -⟩ |
            ⟨hd0, hb, -⟩
          · exact Or.inl ⟨hd0, hb⟩
          · exact Or.inr (Or.inl ⟨hd0, hb⟩)
          · exact Or.inr (Or.inr (Or.inl ⟨hd0, hb⟩))
          · exact Or.inr (Or.inr (Or.inr ⟨hd0, hb⟩))
        have huncv : ¬ m.carvedAt (neighborCoord cur dir) := by
          rcases hfacts with ⟨hd0, -, hnc⟩ | ⟨hd0, -, hnc⟩ | ⟨hd0, -, hnc⟩ |
            ⟨hd0, -, hnc⟩ <;> subst hd0 <;>
            simpa only [neighborCoord] using hnc
        have hdirm : (dir = 0 ∧ 0 < cur.y) ∨ (dir = 1 ∧ cur.y + 1 < m.rows) ∨
            (dir = 2 ∧ cur.x + 1 < m.cols) ∨ (dir = 3 ∧ 0 < cur.x) := by
          rw [hrows, hcols]
          exact hdir
        obtain ⟨heq, hne, h1, h2, hd4, hdd4⟩ := carve_ok_full m cur.x cur.y
          dir ID_MAZE_PATH false hwf hxC hyR hdirm
        obtain ⟨hinv', hlt⟩ := inv_step R C st m (top :: rest) cur
          ⟨hrows, hcols, hwf, hcin, hvin, hccv, hvcv, hlast, hfront, hreach⟩
          dir hdir huncv ID_MAZE_PATH false
        have hmeas : 2 * (carveAux m (m.get_offset cur.x cur.y)
            (m.get_offset (neighborCoord cur dir).x
              (neighborCoord cur dir).y)
            dir (oppositeDir dir) ID_MAZE_PATH false).uncarvedCount +
            (cur :: top :: rest).length < f := by
          simp only [List.length_cons] at hm ⊢
          omega
        rw [Maze.gtLoop, hpd]
        dsimp only
        rw [show m.carve cur.x cur.y dir ID_MAZE_PATH false =
          (Except.ok (), carveAux m (m.get_offset cur.x cur.y)
            (m.get_offset (neighborCoord ⟨cur.x, cur.y⟩ dir).x
              (neighborCoord ⟨cur.x, cur.y⟩ dir).y)
            dir (oppositeDir dir) ID_MAZE_PATH false) from heq]
        dsimp only
        rcases hdir with ⟨hd0, -⟩ | ⟨hd0, -⟩ | ⟨hd0, -⟩ | ⟨hd0, -⟩ <;>
            subst hd0
        · obtain ⟨m'', hrun, hp1, hp2, hp3, hp4, hp5, hp6, hp7⟩ :=
            ih (k + 1) _ (cur :: top :: rest) _ hinv' hmeas
          refine ⟨m'', hrun, hp1, hp2, hp3, ?_, hp5, hp6, hp7⟩
          intro i hi
          exact hp4 i (carveAux_carved_mono m _ _ _ _ _ _ hne h1 h2 i hi)
        · obtain ⟨m'', hrun, hp1, hp2, hp3, hp4, hp5, hp6, hp7⟩ :=
            ih (k + 1) _ (cur :: top :: rest) _ hinv' hmeas
          refine ⟨m'', hrun, hp1, hp2, hp3, ?_, hp5, hp6, hp7⟩
          intro i hi
          exact hp4 i (carveAux_carved_mono m _ _ _ _ _ _ hne h1 h2 i hi)
        · obtain ⟨m'', hrun, hp1, hp2, hp3, hp4, hp5, hp6, hp7⟩ :=
            ih (k + 1) _ (cur :: top :: rest) _ hinv' hmeas
          refine ⟨m'', hrun, hp1, hp2, hp3, ?_, hp5, hp6, hp7⟩
          intro i hi
          exact hp4 i (carveAux_carved_mono m _ _ _ _ _ _ hne h1 h2 i hi)
        · obtain ⟨m'', hrun, hp1, hp2, hp3, hp4, hp5, hp6, hp7⟩ :=
            ih (k + 1) _ (cur :: top :: rest) _ hinv' hmeas
          refine ⟨m'', hrun, hp1, hp2, hp3, ?_, hp5, hp6, hp7⟩
          intro i hi
          exact hp4 i (carveAux_carved_mono m _ _ _ _ _ _ hne h1 h2 i hi)

/-! ## Connectivity of the grid graph minus the origin -/

theorem gridAdj_symm (R C : Nat) (p q : Coord) (h : gridAdj R C p q) :
    gridAdj R C q p := by
  obtain ⟨hp, hq, hcase⟩ := h
  refine ⟨hq, hp, ?_⟩
  rcases hcase with ⟨h1, h2⟩ | ⟨h1, h2⟩ | ⟨h1, h2⟩ | ⟨h1, h2⟩
  · exact Or.inr (Or.inl ⟨h1.symm, h2⟩)
  · exact Or.inl ⟨h1.symm, h2⟩
  · exact Or.inr (Or.inr (Or.inr ⟨h1.symm, h2⟩))
  · exact Or.inr (Or.inr (Or.inl ⟨h1.symm, h2⟩))

theorem gridAdjAvoid_symm (R C : Nat) : Symmetric (gridAdjAvoid R C) := by
  intro p q ⟨hadj, hp, hq⟩
  exact ⟨gridAdj_symm R C p q hadj, hq, hp⟩

theorem ReachAvoid_symm (R C : Nat) (p q : Coord)
    (h : ReachAvoid R C p q) : ReachAvoid R C q p :=
  Relation.ReflTransGen.symmetric (gridAdjAvoid_symm R C) h

theorem inb_mk (R C x y : Nat) (hx : x < C) (hy : y < R) :
    inb R C ⟨x, y⟩ := ⟨hx, hy⟩

theorem coord_ne_origin (x y : Nat) (h : 0 < x ∨ 0 < y) :
    (⟨x, y⟩ : Coord) ≠ ⟨0, 0⟩ := by
  intro hcon
  injection hcon with h1 h2
  omega

theorem rowWalk (R C : Nat) (hR : 1 ≤ R) :
    ∀ x, 1 ≤ x → x < C → ReachAvoid R C ⟨x, 0⟩ ⟨1, 0⟩ := by
  intro x
  induction x with
  | zero => omega
  | succ k ih =>
    intro h1 hC
    rcases Nat.eq_zero_or_pos k with hk | hk
    · subst hk
      exact Relation.ReflTransGen.refl
    · refine Relation.ReflTransGen.trans
        (Relation.ReflTransGen.single ?_) (ih hk (by omega))
      refine ⟨⟨inb_mk R C _ _ (by omega) (by omega), inb_mk R C _ _ (by omega) (by omega), ?_⟩, ?_, ?_⟩
      · exact Or.inr (Or.inr (Or.inr ⟨rfl, rfl⟩))
      · exact coord_ne_origin _ _ (Or.inl (by omega))
      · exact coord_ne_origin _ _ (Or.inl (by omega))

theorem colWalk (R C : Nat) :
    ∀ y x, 1 ≤ x → x < C → y < R → ReachAvoid R C ⟨x, y⟩ ⟨x, 0⟩ := by
  intro y
  induction y with
  | zero => exact fun x _ _ _ => Relation.ReflTransGen.refl
  | succ k ih =>
    intro x h1 hC hy
    refine Relation.ReflTransGen.trans
      (Relation.ReflTransGen.single ?_) (ih x h1 hC (by omega))
    refine ⟨⟨inb_mk R C _ _ (by omega) (by omega), inb_mk R C _ _ (by omega) (by omega), ?_⟩, ?_, ?_⟩
    · exact Or.inr (Or.inl ⟨rfl, rfl⟩)
    · exact coord_ne_origin _ _ (Or.inl (by omega))
    · exact coord_ne_origin _ _ (Or.inl (by omega))

theorem col0Walk (R : Nat) (C : Nat) (hC : 1 ≤ C) :
    ∀ y, 1 ≤ y → y < R → ReachAvoid R C ⟨0, y⟩ ⟨0, 1⟩ := by
  intro y
  induction y with
  | zero => omega
  | succ k ih =>
    intro h1 hR
    rcases Nat.eq_zero_or_pos k with hk | hk
    · subst hk
      exact Relation.ReflTransGen.refl
    · refine Relation.ReflTransGen.trans
        (Relation.ReflTransGen.single ?_) (ih hk (by omega))
      refine ⟨⟨inb_mk R C _ _ (by omega) (by omega), inb_mk R C _ _ (by omega) (by omega), ?_⟩, ?_, ?_⟩
      · exact Or.inr (Or.inl ⟨rfl, rfl⟩)
      · exact coord_ne_origin _ _ (Or.inr (by omega))
      · exact coord_ne_origin _ _ (Or.inr (by omega))

theorem reach_canon (R C : Nat) (hR : 1 ≤ R) (hC2 : 2 ≤ C) (p : Coord)
    (hp : inb R C p) (hp0 : p ≠ ⟨0, 0⟩) : ReachAvoid R C p ⟨1, 0⟩ := by
  obtain ⟨px, py⟩ := p
  have hx : px < C := hp.1
  have hy : py < R := hp.2
  rcases Nat.eq_zero_or_pos px with hx0 | hx1
  · subst hx0
    have hy1 : 1 ≤ py := by
      by_contra hcon
      exact hp0 (by
        have : py = 0 := by omega
        rw [this])
    refine @Relation.ReflTransGen.trans Coord (gridAdjAvoid R C) _
      ⟨1, py⟩ _ (Relation.ReflTransGen.single ?_) ?_
    · exact ⟨⟨inb_mk R C _ _ (by omega) (by omega),
        inb_mk R C _ _ (by omega) (by omega),
        Or.inr (Or.inr (Or.inl ⟨rfl, rfl⟩))⟩,
        coord_ne_origin _ _ (Or.inr (by omega)),
        coord_ne_origin _ _ (Or.inl (by omega))⟩
    · exact Relation.ReflTransGen.trans (colWalk R C py 1 (by omega)
        (by omega) hy) (rowWalk R C hR 1 (by omega) (by omega))
  · exact Relation.ReflTransGen.trans
      (colWalk R C py px hx1 hx hy) (rowWalk R C hR px hx1 hx)

theorem gridAvoid_connected (R C : Nat) (hR : 1 ≤ R) (hC : 1 ≤ C)
    (p q : Coord) (hp : inb R C p) (hq : inb R C q) (hp0 : p ≠ ⟨0, 0⟩)
    (hq0 : q ≠ ⟨0, 0⟩) : ReachAvoid R C p q := by
  by_cases hC2 : 2 ≤ C
  · exact Relation.ReflTransGen.trans (reach_canon R C hR hC2 p hp hp0)
      (ReachAvoid_symm R C q ⟨1, 0⟩ (reach_canon R C hR hC2 q hq hq0))
  · have hC1 : C = 1 := by omega
    obtain ⟨px, py⟩ := p
    obtain ⟨qx, qy⟩ := q
    have hpx : px = 0 := by
      have hh : px < C := hp.1
      omega
    have hqx : qx = 0 := by
      have hh : qx < C := hq.1
      omega
    subst hpx hqx
    have hpy : 1 ≤ py := by
      by_contra hcon
      exact hp0 (by
        have : py = 0 := by omega
        rw [this])
    have hqy : 1 ≤ qy := by
      by_contra hcon
      exact hq0 (by
        have : qy = 0 := by omega
        rw [this])
    exact Relation.ReflTransGen.trans
      (col0Walk R C hC py hpy hp.2)
      (ReachAvoid_symm R C ⟨0, qy⟩ ⟨0, 1⟩ (col0Walk R C hC qy hqy hq.2))

theorem frontier_all_carved (m' : Maze) (R C : Nat) (hrows : m'.rows = R)
    (hcols : m'.cols = C) (hR : 1 ≤ R) (hC : 1 ≤ C)
    (hstc : m'.carvedAt ⟨0, 0⟩) (n1 : Coord) (hn1 : inb R C n1)
    (hn1c : m'.carvedAt n1) (hn1ne : n1 ≠ ⟨0, 0⟩)
    (hfront : ∀ p, inb R C p → m'.carvedAt p → m'.hasUncarvedNbr p →
      p = ⟨0, 0⟩) :
    ∀ p, inb R C p → m'.carvedAt p := by
  have hstep : ∀ q, ReachAvoid R C n1 q → m'.carvedAt q := by
    intro q hq
    induction hq with
    | refl => exact hn1c
    | tail hab hbc ih =>
      rename_i b c
      by_contra hcnc
      obtain ⟨⟨hbin, hcin, hadjbc⟩, hbne, hcne⟩ := hbc
      have hbun : m'.hasUncarvedNbr b := by
        refine ⟨c, ?_, hcnc⟩
        rw [hrows, hcols]
        exact ⟨hbin, hcin, hadjbc⟩
      exact hbne (hfront b hbin ih hbun)
  intro p hpin
  by_cases hp0 : p = ⟨0, 0⟩
  · rw [hp0]
    exact hstc
  · exact hstep p (gridAvoid_connected R C hR hC n1 p hn1 hpin hn1ne hp0)

theorem new_wf (R C : Nat) : (Maze.new R C).wf := by
  simp [Maze.wf, Maze.new]

theorem new_getD (R C i : Nat) (h : i < R * C) :
    (Maze.new R C).sq.getD i Square.new = Square.new := by
  show (List.replicate (R * C) Square.new).getD i Square.new = Square.new
  exact getD_replicate _ _ _ _ h

theorem new_uncarvedAt (R C : Nat) (p : Coord) (hp : inb R C p) :
    ¬ (Maze.new R C).carvedAt p := by
  unfold Maze.carvedAt Maze.sqAt
  rw [show (Maze.new R C).get_offset p.x p.y = p.y * C + p.x from rfl,
    new_getD R C _ (off_lt p.x p.y R C hp.1 hp.2)]
  simp [Square.new, Square.is_carved, Square.is_wall_present,
    DIR_NORTH, DIR_SOUTH, DIR_EAST, DIR_WEST]

theorem inv_initial (R C : Nat) (hR : 1 ≤ R) (hC : 1 ≤ C) (dir : Nat)
    (hdir : (dir = 1 ∧ 1 < R) ∨ (dir = 2 ∧ 1 < C)) (id : Int) (co : Bool) :
    Maze.Inv R C ⟨0, 0⟩
      (carveAux (Maze.new R C) ((Maze.new R C).get_offset 0 0)
        ((Maze.new R C).get_offset (neighborCoord ⟨0, 0⟩ dir).x
          (neighborCoord ⟨0, 0⟩ dir).y) dir (oppositeDir dir) id co)
      [⟨0, 0⟩] (neighborCoord ⟨0, 0⟩ dir) ∧
    (carveAux (Maze.new R C) ((Maze.new R C).get_offset 0 0)
        ((Maze.new R C).get_offset (neighborCoord ⟨0, 0⟩ dir).x
          (neighborCoord ⟨0, 0⟩ dir).y) dir (oppositeDir dir) id
        co).uncarvedCount < (Maze.new R C).uncarvedCount := by
  have hwf0 : (Maze.new R C).wf := new_wf R C
  have hx0 : (0 : Nat) < (Maze.new R C).cols := by
    show 0 < C
    omega
  have hy0 : (0 : Nat) < (Maze.new R C).rows := by
    show 0 < R
    omega
  have hdirm : (dir = 0 ∧ 0 < (0 : Nat)) ∨
      (dir = 1 ∧ 0 + 1 < (Maze.new R C).rows) ∨
      (dir = 2 ∧ 0 + 1 < (Maze.new R C).cols) ∨
      (dir = 3 ∧ 0 < (0 : Nat)) := by
    rcases hdir with ⟨hd, hb⟩ | ⟨hd, hb⟩
    · refine Or.inr (Or.inl ⟨hd, ?_⟩)
      show 0 + 1 < R
      omega
    · refine Or.inr (Or.inr (Or.inl ⟨hd, ?_⟩))
      show 0 + 1 < C
      omega
  obtain ⟨-, hne, h1, h2, hd4, hdd4⟩ :=
    carve_ok_full (Maze.new R C) 0 0 dir id co hwf0 hx0 hy0 hdirm
  have hinb_nbr : inb R C (neighborCoord ⟨0, 0⟩ dir) := by
    rcases hdir with ⟨hd, hb⟩ | ⟨hd, hb⟩ <;> subst hd
    · exact inb_mk R C 0 1 (by omega) (by omega)
    · exact inb_mk R C 1 0 (by omega) (by omega)
  have hnbr_ne : neighborCoord ⟨0, 0⟩ dir ≠ ⟨0, 0⟩ := by
    rcases hdir with ⟨hd, hb⟩ | ⟨hd, hb⟩ <;> subst hd
    · exact coord_ne_origin 0 1 (Or.inr (by omega))
    · exact coord_ne_origin 1 0 (Or.inl (by omega))
  set m0 := Maze.new R C with hm0
  set nbr := neighborCoord ⟨0, 0⟩ dir with hnbrdef
  set off := m0.get_offset 0 0 with hoffdef
  set offn := m0.get_offset nbr.x nbr.y with hoffndef
  set M := carveAux m0 off offn dir (oppositeDir dir) id co with hMdef
  have hMrows : M.rows = m0.rows := by rw [hMdef]; rfl
  have hMcols : M.cols = m0.cols := by rw [hMdef]; rfl
  have hMlen : M.sq.length = m0.sq.length := by
    rw [hMdef]
    exact carveAux_length m0 off offn dir (oppositeDir dir) id co
  have hMoff : ∀ a b : Nat, M.get_offset a b = m0.get_offset a b := by
    intro a b
    unfold Maze.get_offset
    rw [hMcols]
  have hmono_idx : ∀ i, (m0.sq.getD i Square.new).is_carved = true →
      (M.sq.getD i Square.new).is_carved = true := by
    rw [hMdef]
    exact fun i h =>
      carveAux_carved_mono m0 off offn dir (oppositeDir dir) id co hne h1 h2
        i h
  have hother : ∀ i, i ≠ off → i ≠ offn →
      M.sq.getD i Square.new = m0.sq.getD i Square.new := by
    rw [hMdef]
    exact fun i hi1 hi2 =>
      carveAux_getD_other m0 off offn dir (oppositeDir dir) id co i hi1 hi2
  have hcarved_pair : (M.sq.getD off Square.new).is_carved = true ∧
      (M.sq.getD offn Square.new).is_carved = true := by
    rw [hMdef]
    exact carveAux_carved m0 off offn dir (oppositeDir dir) id co hne h1 h2
      hd4 hdd4
  have hwalls_pair : (M.sq.getD off Square.new).is_wall_present dir =
        false ∧
      (M.sq.getD offn Square.new).is_wall_present (oppositeDir dir) =
        false := by
    rw [hMdef]
    exact carveAux_walls m0 off offn dir (oppositeDir dir) id co hne h1 h2
      hd4 hdd4
  have hcAt : ∀ c : Coord, M.carvedAt c ↔
      (M.sq.getD (m0.get_offset c.x c.y) Square.new).is_carved = true := by
    intro c
    unfold Maze.carvedAt Maze.sqAt
    rw [hMoff]
  have hwA : ∀ (c : Coord) (d : Nat), M.wallAbsent c d ↔
      (M.sq.getD (m0.get_offset c.x c.y) Square.new).is_wall_present d =
        false := by
    intro c d
    unfold Maze.wallAbsent Maze.sqAt
    rw [hMoff]
  have hMst : M.carvedAt ⟨0, 0⟩ := by
    rw [hcAt]
    exact hcarved_pair.1
  have hMnbr : M.carvedAt nbr := by
    rw [hcAt]
    exact hcarved_pair.2
  have hoff_ne_coord : ∀ p : Coord, inb R C p → p ≠ ⟨0, 0⟩ →
      m0.get_offset p.x p.y ≠ off := by
    intro p hp hpc hcon
    rw [hoffdef] at hcon
    unfold Maze.get_offset at hcon
    obtain ⟨he1, he2⟩ := off_inj m0.cols p.x p.y 0 0
      (show p.x < C from hp.1) hx0 hcon
    exact hpc (coord_eq p ⟨0, 0⟩ he1 he2)
  have hoffn_ne_coord : ∀ p : Coord, inb R C p → p ≠ nbr →
      m0.get_offset p.x p.y ≠ offn := by
    intro p hp hpn hcon
    rw [hoffndef] at hcon
    unfold Maze.get_offset at hcon
    obtain ⟨he1, he2⟩ := off_inj m0.cols p.x p.y nbr.x nbr.y
      (show p.x < C from hp.1) (show nbr.x < C from hinb_nbr.1) hcon
    exact hpn (coord_eq p nbr he1 he2)
  have hadjM : adjOpen M ⟨0, 0⟩ nbr := by
    have hwcur : M.wallAbsent ⟨0, 0⟩ dir := by
      rw [hwA]
      exact hwalls_pair.1
    have hwnbr : M.wallAbsent nbr (oppositeDir dir) := by
      rw [hwA]
      exact hwalls_pair.2
    have hgin1 : inb M.rows M.cols ⟨0, 0⟩ := by
      rw [hMrows, hMcols]
      exact inb_mk _ _ 0 0 hx0 hy0
    have hgin2 : inb M.rows M.cols nbr := by
      rw [hMrows, hMcols]
      exact ⟨show nbr.x < C from hinb_nbr.1, show nbr.y < R from hinb_nbr.2⟩
    rcases hdir with ⟨hd0, hb⟩ | ⟨hd0, hb⟩ <;> subst hd0
    · refine ⟨⟨hgin1, hgin2, ?_⟩, ?_⟩
      · exact Or.inl ⟨by simp [hnbrdef, neighborCoord],
          by simp [hnbrdef, neighborCoord]⟩
      · exact Or.inl ⟨by simp [hnbrdef, neighborCoord],
          by simp [hnbrdef, neighborCoord], hwcur, hwnbr⟩
    · refine ⟨⟨hgin1, hgin2, ?_⟩, ?_⟩
      · exact Or.inr (Or.inr (Or.inl ⟨by simp [hnbrdef, neighborCoord],
          by simp [hnbrdef, neighborCoord]⟩))
      · exact Or.inr (Or.inr (Or.inl ⟨by simp [hnbrdef, neighborCoord],
          by simp [hnbrdef, neighborCoord], hwcur, hwnbr⟩))
  have hm0unc : ∀ p : Coord, inb R C p →
      (m0.sq.getD (m0.get_offset p.x p.y) Square.new).is_carved = false := by
    intro p hp
    rcases hb : (m0.sq.getD (m0.get_offset p.x p.y) Square.new).is_carved
      with _ | _
    · rfl
    · exact absurd hb (by
        have := new_uncarvedAt R C p hp
        unfold Maze.carvedAt Maze.sqAt at this
        exact this)
  constructor
  · refine ⟨by rw [hMrows]; rfl, by rw [hMcols]; rfl, ?_, hinb_nbr, ?_,
      hMnbr, ?_, ?_, ?_, ?_⟩
    · show M.sq.length = M.rows * M.cols
      rw [hMlen, hMrows, hMcols]
      exact hwf0
    · intro c hc
      rcases List.mem_cons.mp hc with hc | hc
      · subst hc
        exact inb_mk R C 0 0 (by omega) (by omega)
      · simp at hc
    · intro c hc
      rcases List.mem_cons.mp hc with hc | hc
      · subst hc
        exact hMst
      · simp at hc
    · show lastCoord ⟨0, 0⟩ [] = (⟨0, 0⟩ : Coord)
      rfl
    · intro p hpin hpcv hpun
      by_cases hpn : p = nbr
      · exact Or.inl hpn
      by_cases hp0 : p = ⟨0, 0⟩
      · exact Or.inr (by simp [hp0])
      exfalso
      have := (hcAt p).mp hpcv
      rw [hother _ (hoff_ne_coord p hpin hp0) (hoffn_ne_coord p hpin hpn)]
        at this
      rw [hm0unc p hpin] at this
      cases this
    · intro p hpin hpcv
      by_cases hpn : p = nbr
      · subst hpn
        exact Relation.ReflTransGen.single hadjM
      by_cases hp0 : p = ⟨0, 0⟩
      · rw [hp0]
        exact Relation.ReflTransGen.refl
      exfalso
      have := (hcAt p).mp hpcv
      rw [hother _ (hoff_ne_coord p hpin hp0) (hoffn_ne_coord p hpin hpn)]
        at this
      rw [hm0unc p hpin] at this
      cases this
  · refine uncarved_lt m0 M hMlen hmono_idx offn h2 ?_ hcarved_pair.2
    rw [hoffndef]
    exact hm0unc nbr hinb_nbr

/-! ## Claim C1 -/

/-- **C1** as stated is refuted at the 1×1 grid: `generate_perfect` fails
("Unable to pick initial direction in generator!"), the grid is returned
unchanged, and its single cell is not carved. -/
theorem generate_perfect_one_by_one_uncarved :
    (Maze.new 1 1).generate_perfect (fun _ => 0) 100 =
      GenResult.err "Unable to pick initial direction in generator!"
        (Maze.new 1 1) ∧
    ((Maze.new 1 1).sq.getD 0 Square.new).is_carved = false := by
  constructor
  · rfl
  · rfl

/-- **C1 (amended).** For every grid with `R, C ≥ 1` and at least two
cells (`R·C ≥ 2`), for every random oracle and sufficient fuel,
`generate_perfect` from `(0, 0)` returns `Ok`, every cell of the resulting
grid is carved, and the carved-wall graph is connected: a flood fill from
any cell reaches all `R·C` cells. -/
theorem generate_perfect_carves_and_connects (oracle : Nat → Nat)
    (R C fuel : Nat) (hR : 1 ≤ R) (hC : 1 ≤ C) (h2 : 2 ≤ R * C)
    (hfuel : 2 * (R * C) + 2 ≤ fuel) :
    ∃ m', (Maze.new R C).generate_perfect oracle fuel = GenResult.ok m' ∧
      m'.rows = R ∧ m'.cols = C ∧
      (∀ p, inb R C p → m'.carvedAt p) ∧
      (∀ p q, inb R C p → inb R C q → Reach m' p q) := by
  have hwf0 := new_wf R C
  have hx0 : (0 : Nat) < (Maze.new R C).cols := by
    show 0 < C
    omega
  have hy0 : (0 : Nat) < (Maze.new R C).rows := by
    show 0 < R
    omega
  obtain ⟨L, hcds⟩ : ∃ L, (Maze.new R C).candidate_directions 0 0 =
      some L := ⟨_, candidates_some (Maze.new R C) 0 0 hwf0 hx0 hy0⟩
  have hmem := candidates_mem (Maze.new R C) 0 0 hwf0 hx0 hy0 L hcds
  have hRC : 2 ≤ R ∨ 2 ≤ C := by
    by_cases h : 2 ≤ R
    · exact Or.inl h
    · have hR1 : R = 1 := by omega
      rw [hR1] at h2
      right
      omega
  have hLne : L ≠ [] := by
    intro hnil
    rcases hRC with hr | hc
    · have hone : (DIR_SOUTH : Nat) ∈ L := (hmem DIR_SOUTH).mpr
        (Or.inr (Or.inl ⟨rfl, by show 0 + 1 < R; omega,
          new_uncarvedAt R C ⟨0, 0 + 1⟩ (inb_mk R C 0 (0 + 1) (by omega)
            (by omega))⟩))
      rw [hnil] at hone
      simp at hone
    · have hone : (DIR_EAST : Nat) ∈ L := (hmem DIR_EAST).mpr
        (Or.inr (Or.inr (Or.inl ⟨rfl, by show 0 + 1 < C; omega,
          new_uncarvedAt R C ⟨0 + 1, 0⟩ (inb_mk R C (0 + 1) 0 (by omega)
            (by omega))⟩)))
      rw [hnil] at hone
      simp at hone
  obtain ⟨dir, hdirdef⟩ : ∃ d, d = L.getD (oracle 0 % L.length) 0 :=
    ⟨_, rfl⟩
  have hpd : (Maze.new R C).pick_direction 0 0 (oracle 0) =
      some (true, dir) := by
    rw [pick_direction_eq (Maze.new R C) 0 0 (oracle 0) L hcds,
      if_neg (fun hcon => hLne (List.length_eq_zero.mp hcon)), hdirdef]
  have hdmem : dir ∈ L := by
    rw [hdirdef]
    exact getD_mem L hLne (oracle 0)
  have hfacts := (hmem dir).mp hdmem
  have hdir12 : (dir = 1 ∧ 1 < R) ∨ (dir = 2 ∧ 1 < C) := by
    rcases hfacts with ⟨-, hb, -⟩ | ⟨hd, hb, -⟩ | ⟨hd, hb, -⟩ | ⟨-, hb, -⟩
    · omega
    · refine Or.inl ⟨hd, ?_⟩
      have hb' : 0 + 1 < R := hb
      omega
    · refine Or.inr ⟨hd, ?_⟩
      have hb' : 0 + 1 < C := hb
      omega
    · omega
  have hdirm : (dir = 0 ∧ 0 < (0 : Nat)) ∨
      (dir = 1 ∧ 0 + 1 < (Maze.new R C).rows) ∨
      (dir = 2 ∧ 0 + 1 < (Maze.new R C).cols) ∨
      (dir = 3 ∧ 0 < (0 : Nat)) := by
    rcases hdir12 with ⟨hd, hb⟩ | ⟨hd, hb⟩
    · refine Or.inr (Or.inl ⟨hd, ?_⟩)
      show 0 + 1 < R
      omega
    · refine Or.inr (Or.inr (Or.inl ⟨hd, ?_⟩))
      show 0 + 1 < C
      omega
  obtain ⟨heq, hne, h1', h2', hd4, hdd4⟩ := carve_ok_full (Maze.new R C)
    0 0 dir ID_MAZE_PATH false hwf0 hx0 hy0 hdirm
  obtain ⟨hinv1, hlt1⟩ := inv_initial R C hR hC dir hdir12 ID_MAZE_PATH
    false
  have hlen0 : (Maze.new R C).sq.length = R * C := hwf0
  have hcnt : (Maze.new R C).uncarvedCount ≤ R * C := by
    have := uncarved_le (Maze.new R C)
    omega
  have hmeas : 2 * (carveAux (Maze.new R C)
      ((Maze.new R C).get_offset 0 0)
      ((Maze.new R C).get_offset (neighborCoord ⟨0, 0⟩ dir).x
        (neighborCoord ⟨0, 0⟩ dir).y) dir (oppositeDir dir) ID_MAZE_PATH
      false).uncarvedCount + ([(⟨0, 0⟩ : Coord)]).length < fuel := by
    simp only [List.length_cons, List.length_nil]
    omega
  obtain ⟨m', hrun, hp1, hp2, hp3, hp4, hp5, hp6, hp7⟩ := gtLoop_ok oracle
    R C ⟨0, 0⟩ fuel 1 (carveAux (Maze.new R C)
      ((Maze.new R C).get_offset 0 0)
      ((Maze.new R C).get_offset (neighborCoord ⟨0, 0⟩ dir).x
        (neighborCoord ⟨0, 0⟩ dir).y) dir (oppositeDir dir) ID_MAZE_PATH
      false) [⟨0, 0⟩] (neighborCoord ⟨0, 0⟩ dir) hinv1 hmeas
  obtain ⟨-, -, -, hnbin, -, hnbcv, -, -, -, -⟩ := hinv1
  have hnbr_ne : neighborCoord ⟨0, 0⟩ dir ≠ ⟨0, 0⟩ := by
    rcases hdir12 with ⟨hd, hb⟩ | ⟨hd, hb⟩ <;> subst hd
    · exact coord_ne_origin 0 (0 + 1) (Or.inr (by omega))
    · exact coord_ne_origin (0 + 1) 0 (Or.inl (by omega))
  have hm'nbr : m'.carvedAt (neighborCoord ⟨0, 0⟩ dir) := by
    unfold Maze.carvedAt Maze.sqAt
    have hoo : m'.get_offset (neighborCoord ⟨0, 0⟩ dir).x
        (neighborCoord ⟨0, 0⟩ dir).y =
        (neighborCoord ⟨0, 0⟩ dir).y * C + (neighborCoord ⟨0, 0⟩ dir).x := by
      unfold Maze.get_offset
      rw [hp2]
    rw [hoo]
    apply hp4
    exact hnbcv
  have hall : ∀ p, inb R C p → m'.carvedAt p :=
    frontier_all_carved m' R C hp1 hp2 hR hC hp5 (neighborCoord ⟨0, 0⟩ dir)
      hnbin hm'nbr hnbr_ne hp7
  refine ⟨m', ?_, hp1, hp2, hall, ?_⟩
  · unfold Maze.generate_perfect Maze.generator_growing_tree
    rw [hpd]
    dsimp only
    rw [show (Maze.new R C).carve 0 0 dir ID_MAZE_PATH false =
      (Except.ok (), carveAux (Maze.new R C)
        ((Maze.new R C).get_offset 0 0)
        ((Maze.new R C).get_offset (neighborCoord ⟨0, 0⟩ dir).x
          (neighborCoord ⟨0, 0⟩ dir).y) dir (oppositeDir dir) ID_MAZE_PATH
        false) from heq]
    dsimp only
    rcases hdir12 with ⟨hd0, -⟩ | ⟨hd0, -⟩ <;> subst hd0
    · exact hrun
    · exact hrun
  · intro p q hpin hqin
    exact Reach_trans m' p ⟨0, 0⟩ q
      (Reach_symm m' ⟨0, 0⟩ p (hp6 p hpin (hall p hpin)))
      (hp6 q hqin (hall q hqin))

/-- Witness for the amended C1 at a concrete input: a 1×2 grid with the
constant-zero oracle and fuel 6. -/
theorem generate_perfect_carves_and_connects_witness :
    ∃ m', (Maze.new 1 2).generate_perfect (fun _ => 0) 6 =
        GenResult.ok m' ∧
      m'.rows = 1 ∧ m'.cols = 2 ∧
      (∀ p, inb 1 2 p → m'.carvedAt p) ∧
      (∀ p q, inb 1 2 p → inb 1 2 q → Reach m' p q) :=
  generate_perfect_carves_and_connects (fun _ => 0) 1 2 6 (by decide)
    (by decide) (by decide) (by decide)
